import Mathlib

/-!
Shallow embedding of the `automaton` library (src/src/lib.rs and
src/src/char_automaton.rs) together with proofs about the claims of its
specification.

Conventions of the embedding:
* Rust `usize` indices become `Nat` (the code never relies on overflow).
* `HashMap<Option<S>, SmallVec<usize>>` becomes an association list
  `List (Option S × List Nat)` with distinct keys in insertion order; the
  code never observes hash iteration order in a way that affects the
  properties proved here (key enumeration happens through `transitions`,
  which iterates the alphabet in order).
* Functions that can panic in Rust (`Automaton::from` validation, the
  `expect` in minimization, `unwrap`/`assert!` in parsing) return `Option`,
  with `none` for the panic.  Mutating methods whose only panic is an
  index-bound check are embedded as total functions that leave the value
  unchanged on an out-of-bounds argument; every internal call site passes
  in-bounds arguments, so the two readings agree on all executions that
  return normally.
* The BFS loops (`reached_by_epsilon`, `reached`, the subset construction)
  are embedded with an explicit fuel that dominates the number of loop
  iterations the Rust code performs; the visited-set discipline of the code
  bounds those iterations, and the correctness proofs below show the fuel
  suffices.
-/

set_option linter.unusedSectionVars false
set_option linter.unusedVariables false

namespace Aut

variable {S : Type} [DecidableEq S]

/-- `Regex<S>` from src/src/lib.rs: `String`, `Concat`, `Union`, `KleeneStar`. -/
inductive Regex (S : Type) where
  | String : List S → Regex S
  | Concat : Regex S → Regex S → Regex S
  | Union : Regex S → Regex S → Regex S
  | KleeneStar : Regex S → Regex S
deriving DecidableEq

/-- The payload of a `String` literal, `none` for the other variants (the
discriminator behind the source's `if let String(vec) = &lhs` tests). -/
def Regex.stringVal : Regex S → Option (List S)
  | Regex.String v => some v
  | _ => none

/-- Smart constructor `Regex::concat`: an empty-literal operand yields the
other operand, two literals fuse into one, otherwise `Concat`. -/
def Regex.concat (lhs rhs : Regex S) : Regex S :=
  if Regex.stringVal lhs = some [] then rhs
  else if Regex.stringVal rhs = some [] then lhs
  else
    match Regex.stringVal lhs, Regex.stringVal rhs with
    | some lv, some rv => Regex.String (lv ++ rv)
    | _, _ => Regex.Concat lhs rhs

/-- Smart constructor `Regex::union` (no normalization). -/
def Regex.union (lhs rhs : Regex S) : Regex S :=
  Regex.Union lhs rhs

/-- Smart constructor `Regex::kleene_star`: star of an empty literal is the
empty literal. -/
def Regex.kleene_star (regex : Regex S) : Regex S :=
  if Regex.stringVal regex = some [] then Regex.String []
  else Regex.KleeneStar regex

/-- The `Automaton<S>` struct from src/src/lib.rs. -/
structure Automaton (S : Type) where
  alphabet : List S
  size : Nat
  initial : Nat
  accepting : List Bool
  transitions : List (List (Option S × List Nat))
deriving DecidableEq

/-- Association-list lookup with decidable equality (stands for `HashMap`
key lookup). -/
def alookup {K V : Type} [DecidableEq K] (k : K) : List (K × V) → Option V
  | [] => none
  | p :: m => if p.1 = k then some p.2 else alookup k m

/-- `map.entry(k).or_default().push(v)` on the association-list encoding. -/
def pushEntry {K : Type} [DecidableEq K] (m : List (K × List Nat)) (k : K) (v : Nat) :
    List (K × List Nat) :=
  if (alookup k m).isSome then
    m.map (fun p => if p.1 = k then (p.1, p.2 ++ [v]) else p)
  else m ++ [(k, [v])]

/-- Building the per-state transition map from a list of `(key, target)`
pairs, as the constructor `Automaton::from` does with `entry`/`push`. -/
def buildMap {K : Type} [DecidableEq K] (l : List (K × Nat)) : List (K × List Nat) :=
  l.foldl (fun m p => pushEntry m p.1 p.2) []

/-- `Automaton::from`: validates the shape invariants (sizes match, initial
in range, destinations in range) and panics (here: `none`) otherwise. -/
def Automaton.fromParts (alphabet : List S) (initial : Nat) (accepting : List Bool)
    (transitions : List (List (Option S × Nat))) : Option (Automaton S) :=
  if transitions.length = accepting.length ∧ initial < accepting.length ∧
      transitions.all (fun ts => ts.all (fun p => p.2 < accepting.length)) then
    some ⟨alphabet, accepting.length, initial, accepting, transitions.map buildMap⟩
  else none

/-- `Automaton::new`: an empty skeleton (panics when `size = 0` because the
initial index 0 is then out of range). -/
def Automaton.new (alphabet : List S) (size : Nat) : Option (Automaton S) :=
  Automaton.fromParts alphabet 0 (List.replicate size false) (List.replicate size [])

/-- Public read accessor `accepting(state)`: indexes `self.accepting`, which
panics (here: `none`) when the state is out of bounds. -/
def Automaton.acceptingAt? (a : Automaton S) (q : Nat) : Option Bool :=
  a.accepting.get? q

/-- Public read accessor `symbol_transitions(state, symbol)`: indexes
`self.transitions` (panic when out of bounds), then looks up the key. -/
def Automaton.symbol_transitions? (a : Automaton S) (q : Nat) (s : S) : Option (List Nat) :=
  (a.transitions.get? q).map (fun m => (alookup (some s) m).getD [])

/-- Public read accessor `empty_transitions(state)`. -/
def Automaton.empty_transitions? (a : Automaton S) (q : Nat) : Option (List Nat) :=
  (a.transitions.get? q).map (fun m => (alookup none m).getD [])

/-- In-bounds reading of the accepting flag (all internal uses of
`accepting(state)` have `state < size`, where this agrees with the accessor). -/
def acceptingD (a : Automaton S) (q : Nat) : Bool :=
  a.accepting.getD q false

/-- In-bounds reading of `symbol_transitions`. -/
def symbolTransitionsD (a : Automaton S) (q : Nat) (s : S) : List Nat :=
  (alookup (some s) (a.transitions.getD q [])).getD []

/-- In-bounds reading of `empty_transitions`. -/
def emptyTransitionsD (a : Automaton S) (q : Nat) : List Nat :=
  (alookup none (a.transitions.getD q [])).getD []

/-- `set_size` (grow-only resize); leaves the automaton unchanged when the
new size is smaller (Rust panics there; no internal call site shrinks). -/
def setSize (a : Automaton S) (newSize : Nat) : Automaton S :=
  if a.size ≤ newSize then
    { a with
      size := newSize
      accepting := a.accepting ++ List.replicate (newSize - a.accepting.length) false
      transitions := a.transitions ++ List.replicate (newSize - a.transitions.length) [] }
  else a

/-- `set_initial` (unchanged on out-of-range argument; Rust panics there). -/
def setInitial (a : Automaton S) (q : Nat) : Automaton S :=
  if q < a.size then { a with initial := q } else a

/-- `set_accepting` (unchanged on out-of-range argument; Rust panics there). -/
def setAccepting (a : Automaton S) (q : Nat) (b : Bool) : Automaton S :=
  if q < a.size then { a with accepting := a.accepting.set q b } else a

/-- `add_transition` (unchanged on out-of-range arguments; Rust panics there). -/
def addTransition (a : Automaton S) (frm tgt : Nat) (sym : Option S) : Automaton S :=
  if frm < a.size ∧ tgt < a.size then
    { a with transitions := a.transitions.set frm (pushEntry (a.transitions.getD frm []) sym tgt) }
  else a

/-- `add_empty_transition`. -/
def addEmptyTransition (a : Automaton S) (frm tgt : Nat) : Automaton S :=
  addTransition a frm tgt none

/-- `add_symbol_transition`. -/
def addSymbolTransition (a : Automaton S) (frm tgt : Nat) (s : S) : Automaton S :=
  addTransition a frm tgt (some s)

/-- `transitions(state)`: the symbol transitions in alphabet order followed by
the ε-transitions, as `(symbol, next_state)` pairs. -/
def transitionsList (a : Automaton S) (q : Nat) : List (Option S × Nat) :=
  ((a.alphabet.map (fun c => (symbolTransitionsD a q c).map (fun t => (some c, t)))).flatten) ++
    (emptyTransitionsD a q).map (fun t => ((none : Option S), t))

/-- One pass of the BFS inner loop: push every unseen successor onto the
visited list and the queue (the Rust code's `visited.insert` + `push_back`). -/
def addNew (vq : List Nat × List Nat) (l : List Nat) : List Nat × List Nat :=
  l.foldl (fun vq r => if r ∈ vq.1 then vq else (vq.1 ++ [r], vq.2 ++ [r])) vq

/-- Fueled worklist BFS over a successor function (the `loop`/`pop_front`
pattern of `reached_by_epsilon` and `reached`). -/
def bfs (f : Nat → List Nat) : Nat → List Nat → List Nat → List Nat
  | 0, visited, _ => visited
  | _ + 1, visited, [] => visited
  | fuel + 1, visited, q :: queue =>
      let step := addNew (visited, queue) (f q)
      bfs f fuel step.1 step.2

/-- `reached_by_epsilon(state)`: the ε-closure of a single state, computed by
BFS over `None`-keyed transitions (shortcut when the state has none). -/
def reachedByEpsilon (a : Automaton S) (q : Nat) : List Nat :=
  if emptyTransitionsD a q = [] then [q]
  else bfs (emptyTransitionsD a) (a.size + 1) [q] [q]

/-- `reached(state)`: BFS over all transitions. -/
def reachedFrom (a : Automaton S) (q : Nat) : List Nat :=
  bfs (fun p => (transitionsList a p).map Prod.snd) (a.size + 1) [q] [q]

/-- First-occurrence deduplication (stands for collecting into a `HashSet`
when only membership is observed afterwards). -/
def dedupKeep : List Nat → List Nat
  | [] => []
  | x :: l => x :: (dedupKeep l).filter (fun y => y ≠ x)

/-- `accepted_from_state(state, word)`: recursion on the word; ε-closure,
then symbol step, then recursion on each successor. -/
def acceptedFromState (a : Automaton S) (q : Nat) : List S → Bool
  | [] => (reachedByEpsilon a q).any (fun r => acceptingD a r)
  | s :: w =>
      if emptyTransitionsD a q = [] then
        (symbolTransitionsD a q s).any (fun r => acceptedFromState a r w)
      else
        (dedupKeep (((reachedByEpsilon a q).map (fun r => symbolTransitionsD a r s)).flatten)).any
          (fun r => acceptedFromState a r w)

/-- `accepted(word)`. -/
def accepted (a : Automaton S) (w : List S) : Bool :=
  acceptedFromState a a.initial w

/-- `is_single_symbol`. -/
def isSingleSymbol (a : Automaton S) : Bool :=
  (List.range a.size).all (fun q => emptyTransitionsD a q = [])

/-- `is_dfa`. -/
def isDfa (a : Automaton S) : Bool :=
  isSingleSymbol a ∧
    (List.range a.size).all (fun q => a.alphabet.all (fun c => (symbolTransitionsD a q c).length ≤ 1))

/-- `is_complete_dfa`. -/
def isCompleteDfa (a : Automaton S) : Bool :=
  isSingleSymbol a ∧
    (List.range a.size).all (fun q => a.alphabet.all (fun c => (symbolTransitionsD a q c).length = 1))

/-- The new accepting flag of a state in `single_symbol_nfa_from`: whether
the ε-closure of `q` meets the accepting set. -/
def ssAccF (a : Automaton S) (q : Nat) : Bool :=
  (reachedByEpsilon a q).any (fun r => acceptingD a r)

/-- The new transition list of a state in `single_symbol_nfa_from`: the
symbol-keyed transitions out of the ε-closure of `q`. -/
def ssTrsF (a : Automaton S) (q : Nat) : List (Option S × Nat) :=
  ((reachedByEpsilon a q).map
    (fun r => (transitionsList a r).filter (fun p => p.1.isSome))).flatten

/-- `single_symbol_nfa_from`: identity on single-symbol inputs; otherwise a
fresh automaton built from `ssAccF` and `ssTrsF` per state. -/
def singleSymbolNfaFrom (a : Automaton S) : Option (Automaton S) :=
  if isSingleSymbol a then some a
  else
    Automaton.fromParts a.alphabet a.initial ((List.range a.size).map (ssAccF a))
      ((List.range a.size).map (ssTrsF a))

/-- Intermediate state of the subset-construction BFS: the discovered masks
in discovery order (their position is the new state index), the worklist,
and the accepting flags and transition rows built so far. -/
structure DfaLoopState (S : Type) where
  visited : List (List Bool)
  queue : List (List Bool)
  acc : List Bool
  trans : List (List (Option S × Nat))

/-- Processing one dequeued mask of the subset construction: for each symbol
in alphabet order compute the successor mask, skip it when empty, allocate a
new index for it when unseen, and record the transition. -/
def dfaProcessMask (b : Automaton S) (mask : List Bool) (visited queue : List (List Bool)) :
    List (List Bool) × List (List Bool) × List (Option S × Nat) :=
  let states := (List.range mask.length).filter (fun i => mask.getD i false)
  b.alphabet.foldl
    (fun vqr c =>
      let nextMask := states.foldl
        (fun m q => (symbolTransitionsD b q c).foldl (fun m r => m.set r true) m)
        (List.replicate b.size false)
      if nextMask.any id = false then vqr
      else
        let vis := if nextMask ∈ vqr.1 then vqr.1 else vqr.1 ++ [nextMask]
        let qu := if nextMask ∈ vqr.1 then vqr.2.1 else vqr.2.1 ++ [nextMask]
        (vis, qu, vqr.2.2 ++ [(some c, (vis.indexOf nextMask))]))
    (visited, queue, [])

/-- The subset-construction worklist loop (`while !queue.is_empty()`),
with fuel dominating the number of dequeued masks. -/
def dfaLoop (b : Automaton S) : Nat → DfaLoopState S → List Bool × List (List (Option S × Nat))
  | 0, st => (st.acc, st.trans)
  | _ + 1, ⟨_, [], accs, rows⟩ => (accs, rows)
  | fuel + 1, ⟨visited, mask :: queue, accs, rows⟩ =>
      let states := (List.range mask.length).filter (fun i => mask.getD i false)
      let accBit := states.any (fun q => acceptingD b q)
      let step := dfaProcessMask b mask visited queue
      dfaLoop b fuel ⟨step.1, step.2.1, accs ++ [accBit], rows ++ [step.2.2]⟩

/-- `dfa_from`: identity on DFAs; otherwise the subset construction over the
single-symbol form.  Note: the result is assembled with the *input's* initial
index (`automaton.initial()` in the source), not with the new state 0. -/
def dfaFrom (a : Automaton S) : Option (Automaton S) :=
  if isDfa a then some a
  else
    (singleSymbolNfaFrom a).bind (fun b =>
      let initialMask := (List.range b.size).map (fun q => q == b.initial)
      let res := dfaLoop b (2 ^ b.size + 1) ⟨[initialMask], [initialMask], [], []⟩
      Automaton.fromParts a.alphabet a.initial res.1 res.2)

/-- The completion pass over an incomplete DFA: append one halting state and
direct every missing (state, symbol) pair into it. -/
def completeWithHalting (dfa : Automaton S) : Automaton S :=
  let d := setSize dfa (dfa.size + 1)
  let halting := d.size - 1
  (List.range d.size).foldl
    (fun d q => d.alphabet.foldl
      (fun d c =>
        if symbolTransitionsD d q c = [] then addSymbolTransition d q halting c else d)
      d)
    d

/-- `complete_dfa_from`: identity on complete DFAs; otherwise determinize,
and if still incomplete run the completion pass. -/
def completeDfaFrom (a : Automaton S) : Option (Automaton S) :=
  if isCompleteDfa a then some a
  else
    (dfaFrom a).bind (fun dfa =>
      if isCompleteDfa dfa then some dfa else some (completeWithHalting dfa))

/-- Splitting one partition class by the (unique) `c`-successor of each
member; `none` when a member has no `c`-transition (the `[0]` indexing in
the source panics there).  The groups are keyed by successor state — the
source's `split_classes.entry(cdfa.symbol_transitions(state, c)[0])` — in
first-occurrence order; an empty class yields no groups. -/
def splitClass (cdfa : Automaton S) (c : S) (cl : List Nat) : Option (List (List Nat)) :=
  match cl.mapM (fun q => (symbolTransitionsD cdfa q c).head?) with
  | none => none
  | some keys =>
      some ((dedupKeep keys).map
        (fun k => cl.filter (fun q => (symbolTransitionsD cdfa q c).head? = some k)))

/-- The `size - 1` refinement rounds of the minimization, each round
iterating the alphabet in order and splitting every class. -/
def refineRounds (cdfa : Automaton S) (classes : List (List Nat)) : Option (List (List Nat)) :=
  (List.range (cdfa.size - 1)).foldlM
    (fun cls _ =>
      cdfa.alphabet.foldlM
        (fun cls c => (cls.mapM (splitClass cdfa c)).map List.flatten) cls)
    classes

/-- Stable insertion by key (the source's stable `sort_by_cached_key` on the
minimum member; the keys are distinct because the classes are disjoint). -/
def insertSorted (key : List Nat → Nat) (cl : List Nat) : List (List Nat) → List (List Nat)
  | [] => [cl]
  | c :: cs => if key cl ≤ key c then cl :: c :: cs else c :: insertSorted key cl cs

/-- Sorting the class list by smallest member. -/
def sortByMin (classes : List (List Nat)) : List (List Nat) :=
  classes.foldr (insertSorted (fun cl => (cl.min?).getD 0)) []

/-- Building the quotient automaton out of the final (sorted, nonempty)
class list: the class-index table, per-class accepting flags, one
representative's transitions per class, and the final `Automaton::from`. -/
def minimalQuotient (cdfa : Automaton S) (sorted : List (List Nat)) : Option (Automaton S) :=
  let classIndex := (sorted.enum).foldl
    (fun v p => p.2.foldl (fun v q => v.set q p.1) v)
    (List.replicate cdfa.size 0)
  let accepting := sorted.map (fun cl => cl.any (fun q => acceptingD cdfa q))
  (sorted.mapM List.head?).bind (fun reps =>
    Automaton.fromParts cdfa.alphabet (classIndex.getD cdfa.initial 0) accepting
      (reps.map (fun rep => (transitionsList cdfa rep).map
        (fun p => (p.1, classIndex.getD p.2 0)))))

/-- The minimization stage after completion: reachable states, the two
initial classes (accepting and non-accepting), the refinement rounds, the
emptiness check of the sort's `expect`, and the quotient. -/
def minimizeCdfa (cdfa : Automaton S) : Option (Automaton S) :=
  let reached := reachedFrom cdfa cdfa.initial
  let classes0 := [reached.filter (fun q => acceptingD cdfa q),
                   reached.filter (fun q => ¬ acceptingD cdfa q)]
  (refineRounds cdfa classes0).bind (fun classes =>
    if classes.any (fun cl => cl.isEmpty) then none
    else minimalQuotient cdfa (sortByMin classes))

/-- `minimal_complete_dfa_from`: completion, reachable-state partition
refinement, then the quotient automaton.  `none` embeds the panics: the
`expect("all classes are non-empty")` calls and the final `Automaton::from`. -/
def minimalCompleteDfaFrom (a : Automaton S) : Option (Automaton S) :=
  (completeDfaFrom a).bind minimizeCdfa

/-- Association-list insert with overwrite (the `HashMap::insert` of the
state-elimination table). -/
def rinsert (m : List (Nat × Regex S)) (k : Nat) (v : Regex S) : List (Nat × Regex S) :=
  if (alookup k m).isSome then m.map (fun p => if p.1 = k then (k, v) else p)
  else m ++ [(k, v)]

/-- Association-list key removal (`HashMap::remove`). -/
def rremove (m : List (Nat × Regex S)) (k : Nat) : List (Nat × Regex S) :=
  m.filter (fun p => p.1 ≠ k)

/-- The seed regex of one edge: a one-symbol literal for a symbol edge, the
empty literal for an ε-edge. -/
def litOf : Option S → Regex S
  | some s => Regex.String [s]
  | none => Regex.String []

/-- One step of seeding a state-elimination row from an outgoing edge,
merging parallel edges by `Union`. -/
def seedStep (m : List (Nat × Regex S)) (p : Option S × Nat) : List (Nat × Regex S) :=
  match alookup p.2 m with
  | some old => rinsert m p.2 (Regex.union old (litOf p.1))
  | none => rinsert m p.2 (litOf p.1)

/-- Seeding one row of the state-elimination table: one regex per outgoing
edge, parallel edges merged by `Union`; then the `Literal([])` edge to the
virtual sink `size` for an accepting state. -/
def seedRow (a : Automaton S) (q : Nat) : List (Nat × Regex S) :=
  let seeded := (transitionsList a q).foldl seedStep []
  if acceptingD a q then rinsert seeded a.size (Regex.String []) else seeded

/-- The regex routed around the eliminated state for one of its outgoing
edges: `T[frm][k] · (Star(T[k][k]))? · T[k][j]`, where `starF` is `k`'s
self-loop entry. -/
def curOf (rfk : Regex S) (starF : Option (Regex S)) (rkj : Regex S) : Regex S :=
  Regex.concat rfk
    (match starF with
     | some selfR => Regex.concat (Regex.kleene_star selfR) rkj
     | none => rkj)

/-- Processing one outgoing edge `(j, rkj)` of the eliminated state `k` for
a row holding `rfk` as its edge to `k`: skip the self-loop entry, otherwise
merge the routed regex into the row's `j`-entry by `Union`. -/
def elimStep (rfk : Regex S) (starF : Option (Regex S)) (k : Nat)
    (row : List (Nat × Regex S)) (p : Nat × Regex S) : List (Nat × Regex S) :=
  if p.1 = k then row
  else
    rinsert row p.1
      (match alookup p.1 row with
       | some old => Regex.union old (curOf rfk starF p.2)
       | none => curOf rfk starF p.2)

/-- Eliminating state `k` from one row: when the row has an edge to `k`,
route every outgoing edge of `k` (taken from `k`'s row snapshot `snap`)
around `k` and then drop the row's edge to `k`. -/
def elimRow (snap : List (Nat × Regex S)) (k : Nat) (row : List (Nat × Regex S)) :
    List (Nat × Regex S) :=
  match alookup k row with
  | none => row
  | some rfk => rremove (snap.foldl (elimStep rfk (alookup k snap) k) row) k

/-- Eliminating one state `k`: apply `elimRow` to every row `frm ≠ k`.  The
source clones `k`'s row once before its `from`-loop; since no iteration of
that loop writes row `k`, reading `rows.getD k []` for each `frm` is the
same snapshot, and the source's per-entry reads of `T[k][k]` and of row
`frm` during the inner loop match `elimRow`'s threading. -/
def eliminateState (n : Nat) (rows : List (List (Nat × Regex S))) (k : Nat) :
    List (List (Nat × Regex S)) :=
  (List.range n).foldl
    (fun rows frm =>
      if frm = k then rows
      else rows.set frm (elimRow (rows.getD k []) k (rows.getD frm [])))
    rows

/-- `regex()`: state elimination.  `none` embeds the `LanguageEmpty` panic
raised when the initial row has no edge to the sink at the end. -/
def regexOf (a : Automaton S) : Option (Regex S) :=
  let rows0 := (List.range a.size).map (fun q => seedRow a q)
  let rows := (List.range a.size).foldl
    (fun rows k => if k = a.initial then rows else eliminateState a.size rows k)
    rows0
  match alookup a.size (rows.getD a.initial []) with
  | none => none
  | some tin =>
      match alookup a.initial (rows.getD a.initial []) with
      | some selfR => some (Regex.concat (Regex.kleene_star selfR) tin)
      | none => some tin

/-- `from_regex`: the inductive (Thompson-style) construction.  The only
`Option` step is `Automaton::new` (which always succeeds here since every
requested size is positive); the mutations are in bounds at every call. -/
def fromRegex (alphabet : List S) : Regex S → Option (Automaton S)
  | Regex.String v => do
      let a0 ← Automaton.new alphabet (v.length + 1)
      let a1 := setInitial a0 0
      let a2 := setAccepting a1 v.length true
      pure (v.enum.foldl (fun a p => addSymbolTransition a p.1 (p.1 + 1) p.2) a2)
  | Regex.Concat lhs rhs => do
      let la ← fromRegex alphabet lhs
      let ra ← fromRegex alphabet rhs
      let r0 ← Automaton.new alphabet (la.size + ra.size)
      let r1 := setInitial r0 la.initial
      let r2 := (List.range la.size).foldl
        (fun r q =>
          let r := (transitionsList la q).foldl (fun r p => addTransition r q p.2 p.1) r
          if acceptingD la q then addEmptyTransition r q (ra.initial + la.size) else r)
        r1
      pure ((List.range ra.size).foldl
        (fun r q =>
          let r := (transitionsList ra q).foldl
            (fun r p => addTransition r (q + la.size) (p.2 + la.size) p.1) r
          if acceptingD ra q then setAccepting r (q + la.size) true else r)
        r2)
  | Regex.Union lhs rhs => do
      let la ← fromRegex alphabet lhs
      let ra ← fromRegex alphabet rhs
      let r0 ← Automaton.new alphabet (1 + la.size + ra.size)
      let r1 := setInitial r0 0
      let r2 := addEmptyTransition r1 0 (la.initial + 1)
      let r3 := addEmptyTransition r2 0 (ra.initial + la.size + 1)
      let r4 := (List.range la.size).foldl
        (fun r q =>
          let r := (transitionsList la q).foldl
            (fun r p => addTransition r (q + 1) (p.2 + 1) p.1) r
          if acceptingD la q then setAccepting r (q + 1) true else r)
        r3
      pure ((List.range ra.size).foldl
        (fun r q =>
          let r := (transitionsList ra q).foldl
            (fun r p => addTransition r (q + la.size + 1) (p.2 + la.size + 1) p.1) r
          if acceptingD ra q then setAccepting r (q + la.size + 1) true else r)
        r4)
  | Regex.KleeneStar inner => do
      let a ← fromRegex alphabet inner
      let a1 := setAccepting a a.initial true
      pure ((List.range a1.size).foldl
        (fun b q => if acceptingD b q then addEmptyTransition b q b.initial else b)
        a1)

/-- Splitting a character list at every occurrence of a separator character
(the semantics of `str::split` with a one-character pattern, over the
character sequence). -/
def splitChar (sep : Char) : List Char → List (List Char)
  | [] => [[]]
  | c :: cs =>
      if c = sep then [] :: splitChar sep cs
      else
        match splitChar sep cs with
        | [] => [[c]]
        | t :: ts => (c :: t) :: ts

/-- The line splitting of Rust's `str::lines`: split on newline, drop a
final empty segment (a trailing newline terminates the last line rather
than opening a new one), and strip a trailing carriage return. -/
def rustLines (s : String) : List (List Char) :=
  let parts := splitChar '\n' s.toList
  let parts := if parts.getLast? = some [] then parts.dropLast else parts
  parts.map (fun l => if l.getLast? = some '\r' then l.dropLast else l)

/-- `usize::from_str` on the inputs arising here: a nonempty all-digit token
(the embedding omits the leading `+` form and overflow, neither of which can
occur on emitter output). -/
def parseNat (l : List Char) : Option Nat :=
  if l ≠ [] ∧ l.all (fun c => c.isDigit) then
    some (l.foldl (fun n c => n * 10 + (c.toNat - 48)) 0)
  else none

/-- The UTF-8 byte length of a token (`str::len` counts bytes). -/
def utf8Len (l : List Char) : Nat :=
  l.foldl (fun n c => n + c.utf8Size) 0

/-- Joining strings with a separator (`Vec::join(" ")`). -/
def joinSep (sep : String) : List String → String
  | [] => ""
  | [x] => x
  | x :: xs => x ++ sep ++ joinSep sep xs

/-- `automaton_to_string` from src/src/char_automaton.rs: initial index,
then the space-separated accepting states, then one line per transition
(the symbol token omitted on ε-edges). -/
def automatonToString (a : Automaton Char) : String :=
  let line1 := toString a.initial ++ "\n"
  let line2 := joinSep " "
    (((List.range a.size).filter (fun q => acceptingD a q)).map toString) ++ "\n"
  let rest := ((List.range a.size).map (fun q =>
      (((transitionsList a q).map (fun p =>
        match p.1 with
        | some c => toString q ++ " " ++ toString p.2 ++ " " ++ String.singleton c ++ "\n"
        | none => toString q ++ " " ++ toString p.2 ++ "\n")).foldl (· ++ ·) ""))).foldl (· ++ ·) ""
  line1 ++ line2 ++ rest

/-- Parsing one transition line: two state tokens, growing the automaton to
cover them, then an ε-edge when no third token exists, otherwise a
single-byte symbol token that must belong to the alphabet (the `unwrap`,
`assert_eq!` and `assert!` panics are `none`; extra tokens past the third
are ignored, which is what indexing `tokens[2]` does). -/
def parseTransitionLine (alphabet : List Char) (a : Automaton Char) (line : List Char) :
    Option (Automaton Char) :=
  match splitChar ' ' line with
  | t0 :: t1 :: rest => do
      let frm ← parseNat t0
      let tgt ← parseNat t1
      let a := setSize a (max a.size (frm + 1))
      let a := setSize a (max a.size (tgt + 1))
      match rest with
      | [] => pure (addEmptyTransition a frm tgt)
      | t2 :: _ =>
          if utf8Len t2 = 1 then
            match t2 with
            | c :: _ => if c ∈ alphabet then pure (addSymbolTransition a frm tgt c) else none
            | [] => none
          else none
  | _ => none

/-- `automaton_from_string`: initial line, accepting line, transition lines;
the automaton grows implicitly to cover every mentioned state. -/
def automatonFromString (alphabet : List Char) (s : String) : Option (Automaton Char) := do
  let a0 ← Automaton.new alphabet 1
  match rustLines s with
  | [] => none
  | l1 :: rest =>
      let initial ← parseNat l1
      let a1 := setSize a0 (max a0.size (initial + 1))
      let a2 := setInitial a1 initial
      match rest with
      | [] => none
      | l2 :: transLines => do
          let accepting ← (splitChar ' ' l2).mapM parseNat
          let a3 := accepting.foldl
            (fun a q => setAccepting (setSize a (max a.size (q + 1))) q true) a2
          transLines.foldlM (fun a line => parseTransitionLine alphabet a line) a3

/-! ## Shape invariants and language semantics -/

/-- The §3 shape invariants: the accepting vector and the transition table
have `size` entries, the initial index is in range, and every transition
destination is in range. -/
def WF (a : Automaton S) : Prop :=
  a.accepting.length = a.size ∧ a.transitions.length = a.size ∧ a.initial < a.size ∧
    ∀ m ∈ a.transitions, ∀ p ∈ m, ∀ q ∈ p.2, q < a.size

instance (a : Automaton S) : Decidable (WF a) := by
  unfold WF; infer_instance

/-- Invariant 4 of §3: every `Some`-keyed transition symbol is an alphabet
member (callers are trusted to honor this, so language claims assume it). -/
def KeysInAlphabet (a : Automaton S) : Prop :=
  ∀ m ∈ a.transitions, ∀ p ∈ m, p.1 = none ∨ ∃ s ∈ a.alphabet, p.1 = some s

instance (a : Automaton S) : Decidable (KeysInAlphabet a) := by
  unfold KeysInAlphabet; infer_instance

/-- The denoted language of a regex: `String w` denotes `{w}`, `Concat`
denotes concatenation, `Union` denotes union, `KleeneStar` denotes the
Kleene star. -/
inductive RLang : Regex S → List S → Prop where
  | str (v : List S) : RLang (Regex.String v) v
  | cat {l r : Regex S} {u v : List S} :
      RLang l u → RLang r v → RLang (Regex.Concat l r) (u ++ v)
  | unionLeft {l r : Regex S} {w : List S} : RLang l w → RLang (Regex.Union l r) w
  | unionRight {l r : Regex S} {w : List S} : RLang r w → RLang (Regex.Union l r) w
  | starNil {e : Regex S} : RLang (Regex.KleeneStar e) []
  | starCons {e : Regex S} {u v : List S} :
      RLang e u → RLang (Regex.KleeneStar e) v → RLang (Regex.KleeneStar e) (u ++ v)

/-! ## Claims settled by concrete computation (C1, C2, C3, C7, C8) -/

/-- A well-formed non-deterministic automaton whose initial state is 1:
state 1 has two `a`-successors. -/
def c1In : Automaton Char :=
  ⟨['a'], 2, 1, [true, false], [[], [(some 'a', [0, 1])]]⟩

/-- Claim C1 (code bug): on a non-deterministic input whose initial index is
1, `dfa_from` returns an automaton whose initial index is the input's 1, not
the specified 0, and whose language differs from the input's (it accepts the
empty word although the input does not). -/
theorem claimC1_code_bug :
    Automaton.fromParts ['a'] 1 [true, false] [[], [(some 'a', 0), (some 'a', 1)]] =
        some c1In ∧
      WF c1In ∧ isDfa c1In = false ∧
      (dfaFrom c1In).map Automaton.initial = some 1 ∧
      (dfaFrom c1In).map (fun b => accepted b []) = some true ∧
      accepted c1In [] = false := by
  decide

/-- The regex `(a*b)*`. -/
def c2r : Regex Char :=
  Regex.KleeneStar (Regex.Concat (Regex.KleeneStar (Regex.String ['a'])) (Regex.String ['b']))

lemma rlang_string {v w : List S} (h : RLang (Regex.String v) w) : w = v := by
  cases h; rfl

lemma rlang_astarb_last {w : List Char}
    (h : RLang (Regex.Concat (Regex.KleeneStar (Regex.String ['a'])) (Regex.String ['b'])) w) :
    w.getLast? = some 'b' := by
  cases h with
  | cat hu hv =>
      rw [rlang_string hv, List.getLast?_append_of_ne_nil _ (by simp)]
      rfl

lemma rlang_c2r_last {w : List Char} (h : RLang c2r w) :
    w = [] ∨ w.getLast? = some 'b' := by
  generalize he : c2r = e at h
  induction h with
  | str v => unfold c2r at he; simp at he
  | cat hu hv ihu ihv => unfold c2r at he; simp at he
  | unionLeft hl ihl => unfold c2r at he; simp at he
  | unionRight hr ihr => unfold c2r at he; simp at he
  | starNil => exact Or.inl rfl
  | starCons hu hv ihu ihv =>
      right
      unfold c2r at he
      injection he with h1
      subst h1
      rcases ihv rfl with rfl | hlast
      · rw [List.append_nil]
        exact rlang_astarb_last hu
      · rw [List.getLast?_append_of_ne_nil]
        · exact hlast
        · intro hnil; rw [hnil] at hlast; simp at hlast

/-- Claim C2 (code bug): the automaton the code builds for `(a*b)*` accepts
the word `"a"`, which is not in the denoted language (every nonempty word of
`L((a*b)*)` ends in `b`). -/
theorem claimC2_code_bug :
    (fromRegex ['a', 'b'] c2r).map (fun b => accepted b ['a']) = some true ∧
      ¬ RLang c2r ['a'] := by
  refine ⟨by decide, ?_⟩
  intro h
  rcases rlang_c2r_last h with h | h <;> simp at h

/-- A complete 3-state DFA over the one-symbol alphabet whose states are all
accepting: it recognizes every word, so one state suffices. -/
def c3In : Automaton Unit :=
  ⟨[()], 3, 0, [true, true, true], [[(some (), [1])], [(some (), [2])], [(some (), [2])]]⟩

/-- The 1-state complete DFA with the same (universal) language. -/
def c3Min : Automaton Unit :=
  ⟨[()], 1, 0, [true], [[(some (), [0])]]⟩

lemma c3In_accepts_all : ∀ (w : List Unit) (q : Nat), q < 3 →
    acceptedFromState c3In q w = true := by
  intro w
  induction w with
  | nil => intro q hq; interval_cases q <;> decide
  | cons s w ih =>
      intro q hq
      interval_cases q
      · show (acceptedFromState c3In 1 w || false) = true
        simp [ih 1 (by norm_num)]
      · show (acceptedFromState c3In 2 w || false) = true
        simp [ih 2 (by norm_num)]
      · show (acceptedFromState c3In 2 w || false) = true
        simp [ih 2 (by norm_num)]

lemma c3Min_accepts_all : ∀ (w : List Unit), acceptedFromState c3Min 0 w = true := by
  intro w
  induction w with
  | nil => decide
  | cons s w ih =>
      show (acceptedFromState c3Min 0 w || false) = true
      simp [ih]

/-- Claim C3 (code bug): the minimization over-refines (it splits classes by
the successor *state* instead of the successor *class*), so on `c3In` it
returns a 2-state automaton although a 1-state complete DFA over the same
alphabet recognizes the same language. -/
theorem claimC3_code_bug :
    WF c3In ∧ isCompleteDfa c3In = true ∧
      (minimalCompleteDfaFrom c3In).map Automaton.size = some 2 ∧
      WF c3Min ∧ isCompleteDfa c3Min = true ∧ c3Min.size = 1 ∧
      c3Min.alphabet = c3In.alphabet ∧
      ∀ w : List Unit, accepted c3Min w = accepted c3In w := by
  refine ⟨by decide, by decide, by decide, by decide, by decide, rfl, rfl, ?_⟩
  intro w
  show acceptedFromState c3Min 0 w = acceptedFromState c3In 0 w
  rw [c3Min_accepts_all, c3In_accepts_all w 0 (by norm_num)]

/-- A 1-state complete DFA over `['a']` whose single state is accepting: its
completed form is itself, and every reachable state is accepting. -/
def c7In : Automaton Char :=
  ⟨['a'], 1, 0, [true], [[(some 'a', [0])]]⟩

/-- Claim C7 (code bug): on a single-state complete DFA whose state is
accepting, the non-accepting initial class is empty, the `size - 1 = 0`
refinement rounds never drop it, and the sort's
`min().expect("all classes are non-empty")` panics: `minimal_complete_dfa_from`
does not return normally. -/
theorem claimC7_code_bug :
    WF c7In ∧ isCompleteDfa c7In = true ∧ acceptingD c7In 0 = true ∧
      minimalCompleteDfaFrom c7In = none := by
  decide

/-- A 1-state automaton with no accepting states. -/
def c8In : Automaton Char :=
  ⟨['a'], 1, 0, [false], [[]]⟩

/-- Claim C8 (code bug): with no accepting states the emitter writes an
empty second line, and the parser's `token.parse::<usize>().unwrap()` on the
empty token panics, so emit-then-parse does not succeed. -/
theorem claimC8_code_bug :
    WF c8In ∧ automatonToString c8In = "0\n\n" ∧
      automatonFromString ['a'] (automatonToString c8In) = none := by
  decide

/-! ## Claim C10: the read accessors are partial at the public interface -/

omit [DecidableEq S] in
lemma get?_eq_none_of_le {α : Type} {l : List α} {n : Nat} (h : l.length ≤ n) :
    l.get? n = none :=
  List.get?_eq_none.mpr h

/-- Claim C10: for a state index at or beyond `size`, the public read
accessors `accepting`, `symbol_transitions` and `empty_transitions` all fail
by out-of-bounds indexing instead of returning a default. -/
theorem claimC10_partial_accessors (a : Automaton S) (q : Nat) (hwf : WF a)
    (hq : a.size ≤ q) :
    a.acceptingAt? q = none ∧ (∀ s : S, a.symbol_transitions? q s = none) ∧
      a.empty_transitions? q = none := by
  obtain ⟨hacc, htr, _, _⟩ := hwf
  refine ⟨?_, fun s => ?_, ?_⟩
  · exact get?_eq_none_of_le (hacc ▸ hq)
  · unfold Automaton.symbol_transitions?
    rw [get?_eq_none_of_le (htr ▸ hq)]
    rfl
  · unfold Automaton.empty_transitions?
    rw [get?_eq_none_of_le (htr ▸ hq)]
    rfl

/-- Witness for C10 at the concrete automaton `c8In` and index 5. -/
theorem claimC10_witness :
    WF c8In ∧ c8In.size ≤ 5 ∧
      (c8In.acceptingAt? 5 = none ∧ (∀ s : Char, c8In.symbol_transitions? 5 s = none) ∧
        c8In.empty_transitions? 5 = none) :=
  ⟨by decide, by decide, claimC10_partial_accessors c8In 5 (by decide) (by decide)⟩

/-! ## Claim C9: every operation returning an automaton satisfies the shape
invariants -/

omit [DecidableEq S] in
lemma getD_mem_or_default {α : Type} (l : List α) (n : Nat) (d : α) :
    l.getD n d ∈ l ∨ l.getD n d = d := by
  induction l generalizing n with
  | nil => right; cases n <;> rfl
  | cons x xs ih =>
      cases n with
      | zero => left; exact List.mem_cons_self x xs
      | succ n =>
          rcases ih n with h | h
          · left; exact List.mem_cons_of_mem x h
          · right; exact h

lemma pushEntry_prop {K : Type} [DecidableEq K] {P : K → Nat → Prop}
    {m : List (K × List Nat)} {k : K} {v : Nat}
    (hm : ∀ p ∈ m, ∀ q ∈ p.2, P p.1 q) (hv : P k v) :
    ∀ p ∈ pushEntry m k v, ∀ q ∈ p.2, P p.1 q := by
  unfold pushEntry
  split
  · intro p hp q hq
    rw [List.mem_map] at hp
    obtain ⟨p0, hp0, hpe⟩ := hp
    by_cases h : p0.1 = k
    · rw [if_pos h] at hpe
      subst hpe
      rcases List.mem_append.mp hq with hq | hq
      · exact hm p0 hp0 q hq
      · simp only [List.mem_singleton] at hq
        subst hq; rw [h]; exact hv
    · rw [if_neg h] at hpe
      subst hpe
      exact hm p0 hp0 q hq
  · intro p hp q hq
    rcases List.mem_append.mp hp with hp | hp
    · exact hm p hp q hq
    · simp only [List.mem_singleton] at hp
      subst hp
      simp only [List.mem_singleton] at hq
      subst hq; exact hv

lemma buildMap_prop {P : Option S → Nat → Prop} {l : List (Option S × Nat)}
    (hl : ∀ p ∈ l, P p.1 p.2) :
    ∀ p ∈ buildMap l, ∀ q ∈ p.2, P p.1 q := by
  unfold buildMap
  suffices h : ∀ (m : List (Option S × List Nat)), (∀ p ∈ m, ∀ q ∈ p.2, P p.1 q) →
      ∀ p ∈ l.foldl (fun m p => pushEntry m p.1 p.2) m, ∀ q ∈ p.2, P p.1 q by
    exact h [] (by simp)
  induction l with
  | nil => intro m hm; simpa using hm
  | cons x l ih =>
      intro m hm
      have hx : P x.1 x.2 := hl x (List.mem_cons_self x l)
      have hl' : ∀ p ∈ l, P p.1 p.2 := fun p hp => hl p (List.mem_cons_of_mem x hp)
      exact ih hl' (pushEntry m x.1 x.2) (pushEntry_prop hm hx)

lemma fromParts_wf {alph : List S} {init : Nat} {acc : List Bool}
    {tr : List (List (Option S × Nat))} {a : Automaton S}
    (h : Automaton.fromParts alph init acc tr = some a) : WF a := by
  unfold Automaton.fromParts at h
  split at h
  · rename_i hc
    obtain ⟨hlen, hinit, hdest⟩ := hc
    cases h
    refine ⟨rfl, by simpa using hlen, hinit, ?_⟩
    intro m hm p hp q hq
    rw [List.mem_map] at hm
    obtain ⟨ts, hts, rfl⟩ := hm
    simp only [List.all_eq_true, decide_eq_true_eq] at hdest
    exact buildMap_prop (P := fun _ q => q < acc.length)
      (fun p hp => hdest ts hts p hp) p hp q hq
  · exact absurd h (by simp)

lemma new_wf {alph : List S} {n : Nat} {a : Automaton S}
    (h : Automaton.new alph n = some a) : WF a :=
  fromParts_wf h

lemma setSize_wf {a : Automaton S} {n : Nat} (h : WF a) : WF (setSize a n) := by
  obtain ⟨hacc, htr, hinit, hdest⟩ := h
  unfold setSize
  split
  · rename_i hle
    refine ⟨?_, ?_, Nat.lt_of_lt_of_le hinit hle, ?_⟩
    · simp [hacc]; omega
    · simp [htr]; omega
    · intro m hm p hp q hq
      rcases List.mem_append.mp hm with hm | hm
      · exact Nat.lt_of_lt_of_le (hdest m hm p hp q hq) hle
      · rw [List.eq_of_mem_replicate hm] at hp
        exact absurd hp (List.not_mem_nil p)
  · exact ⟨hacc, htr, hinit, hdest⟩

lemma setInitial_wf {a : Automaton S} {q : Nat} (h : WF a) : WF (setInitial a q) := by
  obtain ⟨hacc, htr, hinit, hdest⟩ := h
  unfold setInitial
  split
  · exact ⟨hacc, htr, by assumption, hdest⟩
  · exact ⟨hacc, htr, hinit, hdest⟩

lemma setAccepting_wf {a : Automaton S} {q : Nat} {b : Bool} (h : WF a) :
    WF (setAccepting a q b) := by
  obtain ⟨hacc, htr, hinit, hdest⟩ := h
  unfold setAccepting
  split
  · exact ⟨by simpa using hacc, htr, hinit, hdest⟩
  · exact ⟨hacc, htr, hinit, hdest⟩

lemma addTransition_wf {a : Automaton S} {f t : Nat} {sym : Option S} (h : WF a) :
    WF (addTransition a f t sym) := by
  obtain ⟨hacc, htr, hinit, hdest⟩ := h
  unfold addTransition
  split
  · rename_i hft
    refine ⟨hacc, by simpa using htr, hinit, ?_⟩
    intro m hm p hp q hq
    rcases List.mem_or_eq_of_mem_set hm with hm | hm
    · exact hdest m hm p hp q hq
    · subst hm
      refine pushEntry_prop (P := fun _ q => q < a.size) ?_ hft.2 p hp q hq
      intro p0 hp0 q0 hq0
      rcases getD_mem_or_default a.transitions f [] with hm0 | hm0
      · exact hdest _ hm0 p0 hp0 q0 hq0
      · rw [hm0] at hp0
        exact absurd hp0 (List.not_mem_nil p0)
  · exact ⟨hacc, htr, hinit, hdest⟩

lemma foldl_preserve {α β : Type} {P : β → Prop} {f : β → α → β}
    (hf : ∀ b x, P b → P (f b x)) : ∀ (l : List α) (b : β), P b → P (l.foldl f b) := by
  intro l
  induction l with
  | nil => intro b hb; exact hb
  | cons x l ih => intro b hb; exact ih (f b x) (hf b x hb)

lemma singleSymbolNfaFrom_wf {a b : Automaton S} (h : WF a)
    (he : singleSymbolNfaFrom a = some b) : WF b := by
  unfold singleSymbolNfaFrom at he
  split at he
  · cases he; exact h
  · exact fromParts_wf he

lemma dfaFrom_wf {a b : Automaton S} (h : WF a) (he : dfaFrom a = some b) : WF b := by
  unfold dfaFrom at he
  split at he
  · cases he; exact h
  · rw [Option.bind_eq_some] at he
    obtain ⟨c, _, he⟩ := he
    exact fromParts_wf he

lemma completeWithHalting_wf {dfa : Automaton S} (h : WF dfa) :
    WF (completeWithHalting dfa) := by
  unfold completeWithHalting
  refine foldl_preserve (fun d q hd => ?_) _ _ (setSize_wf h)
  refine foldl_preserve (fun d c hd => ?_) _ _ hd
  dsimp only
  split
  · exact addTransition_wf hd
  · exact hd

lemma completeDfaFrom_wf {a b : Automaton S} (h : WF a)
    (he : completeDfaFrom a = some b) : WF b := by
  unfold completeDfaFrom at he
  split at he
  · cases he; exact h
  · rw [Option.bind_eq_some] at he
    obtain ⟨dfa, hd, he⟩ := he
    have hdfa : WF dfa := dfaFrom_wf h hd
    split at he
    · cases he; exact hdfa
    · cases he; exact completeWithHalting_wf hdfa

lemma minimalQuotient_wf {cdfa b : Automaton S} {sorted : List (List Nat)}
    (he : minimalQuotient cdfa sorted = some b) : WF b := by
  simp only [minimalQuotient, Option.bind_eq_some] at he
  obtain ⟨reps, _, he⟩ := he
  exact fromParts_wf he

lemma minimalCompleteDfaFrom_wf {a b : Automaton S} (h : WF a)
    (he : minimalCompleteDfaFrom a = some b) : WF b := by
  simp only [minimalCompleteDfaFrom, Option.bind_eq_some] at he
  obtain ⟨cdfa, _, he⟩ := he
  simp only [minimizeCdfa, Option.bind_eq_some] at he
  obtain ⟨classes, _, he⟩ := he
  split at he
  · exact absurd he (by simp)
  · exact minimalQuotient_wf he

lemma fromRegex_wf : ∀ (r : Regex S) (alph : List S) (a : Automaton S),
    fromRegex alph r = some a → WF a := by
  intro r
  induction r with
  | String v =>
      intro alph a h
      simp only [fromRegex, Option.bind_eq_bind, Option.bind_eq_some] at h
      obtain ⟨a0, h0, h⟩ := h
      cases h
      refine foldl_preserve (fun b p hb => addTransition_wf hb) _ _ ?_
      exact setAccepting_wf (setInitial_wf (new_wf h0))
  | Concat lhs rhs ihl ihr =>
      intro alph a h
      simp only [fromRegex, Option.bind_eq_bind, Option.bind_eq_some] at h
      obtain ⟨la, hla, ra, hra, r0, hr0, h⟩ := h
      cases h
      refine foldl_preserve (fun b q hb => ?_) _ _ ?_
      · dsimp only
        split
        · exact setAccepting_wf (foldl_preserve (fun b p hb => addTransition_wf hb) _ _ hb)
        · exact foldl_preserve (fun b p hb => addTransition_wf hb) _ _ hb
      · refine foldl_preserve (fun b q hb => ?_) _ _ (setInitial_wf (new_wf hr0))
        dsimp only
        split
        · exact addTransition_wf (foldl_preserve (fun b p hb => addTransition_wf hb) _ _ hb)
        · exact foldl_preserve (fun b p hb => addTransition_wf hb) _ _ hb
  | Union lhs rhs ihl ihr =>
      intro alph a h
      simp only [fromRegex, Option.bind_eq_bind, Option.bind_eq_some] at h
      obtain ⟨la, hla, ra, hra, r0, hr0, h⟩ := h
      cases h
      refine foldl_preserve (fun b q hb => ?_) _ _ ?_
      · dsimp only
        split
        · exact setAccepting_wf (foldl_preserve (fun b p hb => addTransition_wf hb) _ _ hb)
        · exact foldl_preserve (fun b p hb => addTransition_wf hb) _ _ hb
      · refine foldl_preserve (fun b q hb => ?_) _ _ ?_
        · dsimp only
          split
          · exact setAccepting_wf (foldl_preserve (fun b p hb => addTransition_wf hb) _ _ hb)
          · exact foldl_preserve (fun b p hb => addTransition_wf hb) _ _ hb
        · exact addTransition_wf (addTransition_wf (setInitial_wf (new_wf hr0)))
  | KleeneStar inner ih =>
      intro alph a h
      simp only [fromRegex, Option.bind_eq_bind, Option.bind_eq_some] at h
      obtain ⟨a0, h0, h⟩ := h
      cases h
      refine foldl_preserve (fun b q hb => ?_) _ _ (setAccepting_wf (ih alph a0 h0))
      dsimp only
      split
      · exact addTransition_wf hb
      · exact hb

/-- Claim C9: every operation that returns an automaton (`new`, `from`,
`set_size`, `single_symbol_nfa_from`, `dfa_from`, `complete_dfa_from`,
`minimal_complete_dfa_from`, `from_regex`) yields one satisfying the §3
shape invariants, and every mutation preserves them. -/
theorem claimC9_shape :
    (∀ (alph : List S) (n : Nat) (a : Automaton S), Automaton.new alph n = some a → WF a) ∧
      (∀ (alph : List S) (i : Nat) (acc : List Bool) (tr : List (List (Option S × Nat)))
        (a : Automaton S), Automaton.fromParts alph i acc tr = some a → WF a) ∧
      (∀ (a : Automaton S) (n : Nat), WF a → WF (setSize a n)) ∧
      (∀ (a : Automaton S) (q : Nat), WF a → WF (setInitial a q)) ∧
      (∀ (a : Automaton S) (q : Nat) (b : Bool), WF a → WF (setAccepting a q b)) ∧
      (∀ (a : Automaton S) (f t : Nat) (sym : Option S), WF a → WF (addTransition a f t sym)) ∧
      (∀ (a : Automaton S) (f t : Nat), WF a → WF (addEmptyTransition a f t)) ∧
      (∀ (a : Automaton S) (f t : Nat) (s : S), WF a → WF (addSymbolTransition a f t s)) ∧
      (∀ (a b : Automaton S), WF a → singleSymbolNfaFrom a = some b → WF b) ∧
      (∀ (a b : Automaton S), WF a → dfaFrom a = some b → WF b) ∧
      (∀ (a b : Automaton S), WF a → completeDfaFrom a = some b → WF b) ∧
      (∀ (a b : Automaton S), WF a → minimalCompleteDfaFrom a = some b → WF b) ∧
      (∀ (alph : List S) (r : Regex S) (a : Automaton S), fromRegex alph r = some a → WF a) :=
  ⟨fun _ _ _ h => new_wf h,
   fun _ _ _ _ _ h => fromParts_wf h,
   fun _ _ h => setSize_wf h,
   fun _ _ h => setInitial_wf h,
   fun _ _ _ h => setAccepting_wf h,
   fun _ _ _ _ h => addTransition_wf h,
   fun _ _ _ h => addTransition_wf h,
   fun _ _ _ _ h => addTransition_wf h,
   fun _ _ h he => singleSymbolNfaFrom_wf h he,
   fun _ _ h he => dfaFrom_wf h he,
   fun _ _ h he => completeDfaFrom_wf h he,
   fun _ _ h he => minimalCompleteDfaFrom_wf h he,
   fun _ r _ h => fromRegex_wf r _ _ h⟩

/-- Witness for C9: `Automaton::new` over `['a']` with one state yields
exactly `c8In`, which the theorem shows well-formed. -/
theorem claimC9_witness : Automaton.new ['a'] 1 = some c8In ∧ WF c8In :=
  ⟨by decide, claimC9_shape.1 ['a'] 1 c8In (by decide)⟩

/-! ## Claim C4: the acceptance engine

The mathematical acceptance relation of §4.2: ε-closure is the
reflexive-transitive closure of the `None`-keyed transition relation, a step
takes the symbol successors of the ε-closure, and a word is accepted when
the closure of the final state set meets the accepting set. -/

/-- One ε-edge of the automaton. -/
def EpsStep (a : Automaton S) (p q : Nat) : Prop :=
  q ∈ emptyTransitionsD a p

/-- ε-closure of a set of states (reflexive-transitive closure of ε-edges). -/
def EpsClosure (a : Automaton S) (Q : Set Nat) : Set Nat :=
  {r | ∃ q ∈ Q, Relation.ReflTransGen (EpsStep a) q r}

/-- `step(Q, s)`: the `s`-successors of the ε-closure of `Q`. -/
def StepSet (a : Automaton S) (Q : Set Nat) (s : S) : Set Nat :=
  {r | ∃ q ∈ EpsClosure a Q, r ∈ symbolTransitionsD a q s}

/-- The specified acceptance from a state set: fold `step` over the word and
test whether the ε-closure of the result meets the accepting set. -/
def SpecFrom (a : Automaton S) (Q : Set Nat) (w : List S) : Prop :=
  ∃ q ∈ EpsClosure a (w.foldl (StepSet a) Q), acceptingD a q = true

/-- The specified acceptance of §4.2: start from `Q₀ = ε-closure({q₀})`. -/
def AcceptsSpec (a : Automaton S) (w : List S) : Prop :=
  SpecFrom a (EpsClosure a {a.initial}) w

/-! ### The worklist BFS computes reachability -/

omit [DecidableEq S] in
lemma addNew_cons (vq : List Nat × List Nat) (r : Nat) (l : List Nat) :
    addNew vq (r :: l) =
      addNew (if r ∈ vq.1 then vq else (vq.1 ++ [r], vq.2 ++ [r])) l := rfl

omit [DecidableEq S] in
lemma addNew_fst_mem (y : Nat) :
    ∀ (l v q : List Nat), y ∈ (addNew (v, q) l).1 ↔ y ∈ v ∨ y ∈ l := by
  intro l
  induction l with
  | nil => intro v q; simp [addNew]
  | cons r l ih =>
      intro v q
      rw [addNew_cons]
      by_cases hr : r ∈ v
      · rw [if_pos hr, ih]
        constructor
        · rintro (h | h)
          · exact Or.inl h
          · exact Or.inr (List.mem_cons_of_mem r h)
        · rintro (h | h)
          · exact Or.inl h
          · rcases List.mem_cons.mp h with rfl | h
            · exact Or.inl hr
            · exact Or.inr h
      · rw [if_neg hr]
        dsimp only
        rw [ih]
        simp only [List.mem_append, List.mem_singleton, List.mem_cons]
        tauto

omit [DecidableEq S] in
lemma addNew_snd_mem (y : Nat) :
    ∀ (l v q : List Nat), y ∈ (addNew (v, q) l).2 ↔ y ∈ q ∨ (y ∈ l ∧ y ∉ v) := by
  intro l
  induction l with
  | nil => intro v q; simp [addNew]
  | cons r l ih =>
      intro v q
      rw [addNew_cons]
      by_cases hr : r ∈ v
      · rw [if_pos hr, ih]
        constructor
        · rintro (h | h)
          · exact Or.inl h
          · exact Or.inr ⟨List.mem_cons_of_mem r h.1, h.2⟩
        · rintro (h | ⟨h1, h2⟩)
          · exact Or.inl h
          · rcases List.mem_cons.mp h1 with rfl | h1
            · exact absurd hr h2
            · exact Or.inr ⟨h1, h2⟩
      · rw [if_neg hr]
        dsimp only
        rw [ih]
        simp only [List.mem_append, List.mem_singleton, List.mem_cons]
        by_cases hy : y = r
        · subst hy; tauto
        · tauto

omit [DecidableEq S] in
lemma addNew_length :
    ∀ (l v q : List Nat),
      (addNew (v, q) l).1.length + q.length = (addNew (v, q) l).2.length + v.length := by
  intro l
  induction l with
  | nil => intro v q; simp [addNew]; omega
  | cons r l ih =>
      intro v q
      rw [addNew_cons]
      by_cases hr : r ∈ v
      · rw [if_pos hr]; exact ih v q
      · rw [if_neg hr]
        dsimp only
        have := ih (v ++ [r]) (q ++ [r])
        simp only [List.length_append, List.length_singleton] at this ⊢
        omega

omit [DecidableEq S] in
lemma addNew_fst_nodup :
    ∀ (l v q : List Nat), v.Nodup → (addNew (v, q) l).1.Nodup := by
  intro l
  induction l with
  | nil => intro v q h; exact h
  | cons r l ih =>
      intro v q h
      rw [addNew_cons]
      by_cases hr : r ∈ v
      · rw [if_pos hr]; exact ih v q h
      · rw [if_neg hr]
        dsimp only
        refine ih _ _ ?_
        simp [List.nodup_append, h, hr]

omit [DecidableEq S] in
lemma length_le_of_nodup_lt {l : List Nat} {n : Nat} (hnd : l.Nodup)
    (hb : ∀ x ∈ l, x < n) : l.length ≤ n := by
  have h1 : l.toFinset.card = l.length := List.toFinset_card_of_nodup hnd
  have h2 : l.toFinset ⊆ Finset.range n := by
    intro x hx
    rw [Finset.mem_range]
    exact hb x (List.mem_toFinset.mp hx)
  have := Finset.card_le_card h2
  rw [h1, Finset.card_range] at this
  exact this

omit [DecidableEq S] in
lemma addNew_fst_length_le : ∀ (l v q : List Nat),
    v.length ≤ (addNew (v, q) l).1.length := by
  intro l
  induction l with
  | nil => intro v q; exact Nat.le_refl _
  | cons r l ih =>
      intro v q
      rw [addNew_cons]
      by_cases hr : r ∈ v
      · rw [if_pos hr]; exact ih v q
      · rw [if_neg hr]
        dsimp only
        refine Nat.le_trans ?_ (ih (v ++ [r]) (q ++ [r]))
        simp

omit [DecidableEq S] in
lemma bfs_zero {f : Nat → List Nat} {v q : List Nat} : bfs f 0 v q = v := rfl

omit [DecidableEq S] in
lemma bfs_nil {f : Nat → List Nat} {fuel : Nat} {v : List Nat} :
    bfs f (fuel + 1) v [] = v := rfl

omit [DecidableEq S] in
lemma bfs_cons {f : Nat → List Nat} {fuel : Nat} {v : List Nat} {x : Nat} {queue : List Nat} :
    bfs f (fuel + 1) v (x :: queue) =
      bfs f fuel (addNew (v, queue) (f x)).1 (addNew (v, queue) (f x)).2 := rfl

omit [DecidableEq S] in
lemma bfs_superset {f : Nat → List Nat} :
    ∀ (fuel : Nat) (v q : List Nat), ∀ y ∈ v, y ∈ bfs f fuel v q := by
  intro fuel
  induction fuel with
  | zero => intro v q y hy; exact hy
  | succ fuel ih =>
      intro v q y hy
      cases q with
      | nil => exact hy
      | cons x queue =>
          rw [bfs_cons]
          exact ih _ _ y ((addNew_fst_mem y (f x) v queue).mpr (Or.inl hy))

omit [DecidableEq S] in
lemma bfs_sound {f : Nat → List Nat} (q0 : Nat) :
    ∀ (fuel : Nat) (v q : List Nat),
      (∀ x ∈ v, Relation.ReflTransGen (fun x y => y ∈ f x) q0 x) →
      (∀ x ∈ q, x ∈ v) →
      ∀ r ∈ bfs f fuel v q, Relation.ReflTransGen (fun x y => y ∈ f x) q0 r := by
  intro fuel
  induction fuel with
  | zero => intro v q hv _ r hr; exact hv r hr
  | succ fuel ih =>
      intro v q hv hq r hr
      cases q with
      | nil => exact hv r hr
      | cons x queue =>
          rw [bfs_cons] at hr
          refine ih _ _ ?_ ?_ r hr
          · intro y hy
            rcases (addNew_fst_mem y (f x) v queue).mp hy with h | h
            · exact hv y h
            · exact (hv x (hq x (List.mem_cons_self x queue))).tail h
          · intro y hy
            rcases (addNew_snd_mem y (f x) v queue).mp hy with h | h
            · exact (addNew_fst_mem y (f x) v queue).mpr
                (Or.inl (hq y (List.mem_cons_of_mem x h)))
            · exact (addNew_fst_mem y (f x) v queue).mpr (Or.inr h.1)

omit [DecidableEq S] in
lemma bfs_closed {f : Nat → List Nat} {n : Nat} (hf : ∀ p, ∀ r ∈ f p, r < n) :
    ∀ (fuel : Nat) (v q : List Nat), v.Nodup → (∀ x ∈ q, x ∈ v) →
      (∀ x ∈ v, x < n) →
      (∀ x ∈ v, x ∉ q → ∀ r ∈ f x, r ∈ v) →
      q.length + (n - v.length) < fuel →
      ∀ x ∈ bfs f fuel v q, ∀ r ∈ f x, r ∈ bfs f fuel v q := by
  intro fuel
  induction fuel with
  | zero => intro v q _ _ _ _ hfuel; omega
  | succ fuel ih =>
      intro v q hnd hqv hb hcl hfuel
      cases q with
      | nil =>
          intro x hx r hr
          rw [bfs_nil] at hx ⊢
          exact hcl x hx (List.not_mem_nil x) r hr
      | cons x0 queue =>
          rw [bfs_cons]
          have hfst := fun y => addNew_fst_mem y (f x0) v queue
          have hsnd := fun y => addNew_snd_mem y (f x0) v queue
          have hnd' : (addNew (v, queue) (f x0)).1.Nodup := addNew_fst_nodup (f x0) v queue hnd
          have hb' : ∀ y ∈ (addNew (v, queue) (f x0)).1, y < n := by
            intro y hy
            rcases (hfst y).mp hy with h | h
            · exact hb y h
            · exact hf x0 y h
          refine ih _ _ hnd' ?_ hb' ?_ ?_
          · intro y hy
            rcases (hsnd y).mp hy with h | h
            · exact (hfst y).mpr (Or.inl (hqv y (List.mem_cons_of_mem x0 h)))
            · exact (hfst y).mpr (Or.inr h.1)
          · intro y hy hyq r hr
            rcases (hfst y).mp hy with hyv | hyf
            · by_cases hyx : y = x0
              · subst hyx
                exact (hfst r).mpr (Or.inr hr)
              · have : y ∉ x0 :: queue := by
                  intro hmem
                  rcases List.mem_cons.mp hmem with h | h
                  · exact hyx h
                  · exact hyq ((hsnd y).mpr (Or.inl h))
                exact (hfst r).mpr (Or.inl (hcl y hyv this r hr))
            · by_cases hyv : y ∈ v
              · by_cases hyx : y = x0
                · subst hyx
                  exact (hfst r).mpr (Or.inr hr)
                · have : y ∉ x0 :: queue := by
                    intro hmem
                    rcases List.mem_cons.mp hmem with h | h
                    · exact hyx h
                    · exact hyq ((hsnd y).mpr (Or.inl h))
                  exact (hfst r).mpr (Or.inl (hcl y hyv this r hr))
              · exact absurd ((hsnd y).mpr (Or.inr ⟨hyf, hyv⟩)) hyq
          · have hlen := addNew_length (f x0) v queue
            have hle := addNew_fst_length_le (f x0) v queue
            have hvn : (addNew (v, queue) (f x0)).1.length ≤ n :=
              length_le_of_nodup_lt hnd' hb'
            simp only [List.length_cons] at hfuel
            omega

omit [DecidableEq S] in
lemma bfs_mem_iff {f : Nat → List Nat} {n : Nat} (hf : ∀ p, ∀ r ∈ f p, r < n)
    (q0 : Nat) (hq0 : q0 < n) (r : Nat) :
    r ∈ bfs f (n + 1) [q0] [q0] ↔ Relation.ReflTransGen (fun x y => y ∈ f x) q0 r := by
  constructor
  · refine bfs_sound q0 (n + 1) [q0] [q0] ?_ ?_ r
    · intro x hx
      rcases List.mem_singleton.mp hx with rfl
      exact Relation.ReflTransGen.refl
    · intro x hx; exact hx
  · intro h
    induction h with
    | refl => exact bfs_superset (n + 1) [q0] [q0] q0 (List.mem_singleton.mpr rfl)
    | tail h1 h2 ih =>
        refine bfs_closed hf (n + 1) [q0] [q0] (List.nodup_singleton q0) ?_ ?_ ?_ ?_ _ ih _ h2
        · intro x hx; exact hx
        · intro x hx
          rcases List.mem_singleton.mp hx with rfl
          exact hq0
        · intro x hx hxq
          exact absurd hx hxq
        · simp only [List.length_singleton]
          omega

/-! ### Bounds and ε-closure of the automaton getters -/

lemma alookup_mem {K V : Type} [DecidableEq K] {m : List (K × V)} {k : K} {v : V}
    (h : alookup k m = some v) : (k, v) ∈ m := by
  induction m with
  | nil => exact absurd h (by simp [alookup])
  | cons p m ih =>
      unfold alookup at h
      split at h
      · rename_i hk
        rw [Option.some_inj] at h
        subst h
        rw [← hk, Prod.mk.eta]
        exact List.mem_cons_self p m
      · exact List.mem_cons_of_mem p (ih h)

lemma row_oob {a : Automaton S} (hwf : WF a) {q : Nat} (hq : a.size ≤ q) :
    a.transitions.getD q [] = [] := by
  apply List.getD_eq_default
  rw [hwf.2.1]
  exact hq

lemma emptyTransitionsD_oob {a : Automaton S} (hwf : WF a) {q : Nat} (hq : a.size ≤ q) :
    emptyTransitionsD a q = [] := by
  unfold emptyTransitionsD
  rw [row_oob hwf hq]
  rfl

lemma symbolTransitionsD_oob {a : Automaton S} (hwf : WF a) {q : Nat} (hq : a.size ≤ q)
    (s : S) : symbolTransitionsD a q s = [] := by
  unfold symbolTransitionsD
  rw [row_oob hwf hq]
  rfl

lemma eps_bound {a : Automaton S} (hwf : WF a) :
    ∀ p, ∀ r ∈ emptyTransitionsD a p, r < a.size := by
  intro p r hr
  unfold emptyTransitionsD at hr
  cases hl : alookup none (a.transitions.getD p []) with
  | none => rw [hl] at hr; exact absurd hr (List.not_mem_nil r)
  | some ys =>
      rw [hl] at hr
      have hmem := alookup_mem hl
      rcases getD_mem_or_default a.transitions p [] with hrow | hrow
      · exact hwf.2.2.2 _ hrow _ hmem r hr
      · rw [hrow] at hmem
        exact absurd hmem (List.not_mem_nil _)

lemma symb_bound {a : Automaton S} (hwf : WF a) :
    ∀ p s, ∀ r ∈ symbolTransitionsD a p s, r < a.size := by
  intro p s r hr
  unfold symbolTransitionsD at hr
  cases hl : alookup (some s) (a.transitions.getD p []) with
  | none => rw [hl] at hr; exact absurd hr (List.not_mem_nil r)
  | some ys =>
      rw [hl] at hr
      have hmem := alookup_mem hl
      rcases getD_mem_or_default a.transitions p [] with hrow | hrow
      · exact hwf.2.2.2 _ hrow _ hmem r hr
      · rw [hrow] at hmem
        exact absurd hmem (List.not_mem_nil _)

/-- The BFS of `reached_by_epsilon` computes exactly the reflexive-transitive
closure of the ε-edges, for any state of a well-formed automaton, including
automata with ε-cycles (this is the termination content of C4: the fuel
spent by the embedding dominates the Rust loop's iteration count, which the
visited set bounds). -/
lemma reachedByEpsilon_mem {a : Automaton S} (hwf : WF a) (q r : Nat) :
    r ∈ reachedByEpsilon a q ↔ Relation.ReflTransGen (EpsStep a) q r := by
  unfold reachedByEpsilon
  split
  · rename_i h
    simp only [List.mem_singleton]
    constructor
    · rintro rfl; exact Relation.ReflTransGen.refl
    · intro hr
      rcases Relation.ReflTransGen.cases_head hr with heq | ⟨b, hb, hbr⟩
      · exact heq.symm
      · unfold EpsStep at hb
        rw [h] at hb
        exact absurd hb (List.not_mem_nil b)
  · rename_i h
    have hq : q < a.size := by
      by_contra hq
      exact h (emptyTransitionsD_oob hwf (Nat.le_of_not_lt hq))
    exact bfs_mem_iff (eps_bound hwf) q hq r

/-! ### Set-level lemmas for the specified acceptance -/

lemma epsClosure_idem (a : Automaton S) (Q : Set Nat) :
    EpsClosure a (EpsClosure a Q) = EpsClosure a Q := by
  ext r
  constructor
  · rintro ⟨q, ⟨q0, hq0, h1⟩, h2⟩
    exact ⟨q0, hq0, h1.trans h2⟩
  · intro h
    exact ⟨r, h, Relation.ReflTransGen.refl⟩

lemma stepSet_closure (a : Automaton S) (Q : Set Nat) (s : S) :
    StepSet a (EpsClosure a Q) s = StepSet a Q s := by
  unfold StepSet
  rw [epsClosure_idem]

lemma specFrom_closure (a : Automaton S) (Q : Set Nat) (w : List S) :
    SpecFrom a (EpsClosure a Q) w ↔ SpecFrom a Q w := by
  cases w with
  | nil =>
      unfold SpecFrom
      simp only [List.foldl_nil]
      rw [epsClosure_idem]
  | cons s w =>
      unfold SpecFrom
      simp only [List.foldl_cons]
      rw [stepSet_closure]

lemma epsClosure_biUnion (a : Automaton S) (X : Set Nat) (g : Nat → Set Nat) :
    EpsClosure a {r | ∃ x ∈ X, r ∈ g x} = {r | ∃ x ∈ X, r ∈ EpsClosure a (g x)} := by
  ext r
  constructor
  · rintro ⟨q, ⟨x, hx, hq⟩, h⟩
    exact ⟨x, hx, q, hq, h⟩
  · rintro ⟨x, hx, q, hq, h⟩
    exact ⟨q, ⟨x, hx, hq⟩, h⟩

lemma stepSet_biUnion (a : Automaton S) (X : Set Nat) (g : Nat → Set Nat) (s : S) :
    StepSet a {r | ∃ x ∈ X, r ∈ g x} s = {r | ∃ x ∈ X, r ∈ StepSet a (g x) s} := by
  unfold StepSet
  rw [epsClosure_biUnion]
  ext r
  constructor
  · rintro ⟨q, ⟨x, hx, hq⟩, h⟩
    exact ⟨x, hx, q, hq, h⟩
  · rintro ⟨x, hx, q, hq, h⟩
    exact ⟨q, ⟨x, hx, hq⟩, h⟩

lemma foldl_stepSet_biUnion (a : Automaton S) :
    ∀ (w : List S) (g : Nat → Set Nat) (X : Set Nat),
      w.foldl (StepSet a) {r | ∃ x ∈ X, r ∈ g x} =
        {r | ∃ x ∈ X, r ∈ w.foldl (StepSet a) (g x)} := by
  intro w
  induction w with
  | nil => intro g X; rfl
  | cons s w ih =>
      intro g X
      simp only [List.foldl_cons]
      rw [stepSet_biUnion, ih (fun x => StepSet a (g x) s) X]

lemma specFrom_biUnion (a : Automaton S) (X : Set Nat) (g : Nat → Set Nat) (w : List S) :
    SpecFrom a {r | ∃ x ∈ X, r ∈ g x} w ↔ ∃ x ∈ X, SpecFrom a (g x) w := by
  unfold SpecFrom
  rw [foldl_stepSet_biUnion, epsClosure_biUnion]
  constructor
  · rintro ⟨q, ⟨x, hx, hq⟩, hacc⟩
    exact ⟨x, hx, q, hq, hacc⟩
  · rintro ⟨x, hx, q, hq, hacc⟩
    exact ⟨q, ⟨x, hx, hq⟩, hacc⟩

lemma specFrom_list (a : Automaton S) (l : List Nat) (w : List S) :
    SpecFrom a {r | r ∈ l} w ↔ ∃ x ∈ l, SpecFrom a {x} w := by
  have h1 : ({r | r ∈ l} : Set Nat) =
      {r | ∃ x ∈ ({p | p ∈ l} : Set Nat), r ∈ ({x} : Set Nat)} := by
    ext r; simp
  rw [h1, specFrom_biUnion]
  rfl

omit [DecidableEq S] in
lemma mem_dedupKeep {x : Nat} : ∀ {l : List Nat}, x ∈ dedupKeep l ↔ x ∈ l := by
  intro l
  induction l with
  | nil => simp [dedupKeep]
  | cons y l ih =>
      unfold dedupKeep
      by_cases hxy : x = y
      · subst hxy
        simp
      · simp only [List.mem_cons, List.mem_filter]
        constructor
        · rintro (h | ⟨h, _⟩)
          · exact Or.inl h
          · exact Or.inr (ih.mp h)
        · rintro (h | h)
          · exact Or.inl h
          · exact Or.inr ⟨ih.mpr h, by simpa using hxy⟩

/-! ### The acceptance characterization -/

lemma specFrom_cons (a : Automaton S) (hwf : WF a) (q : Nat) (s : S) (w : List S) :
    SpecFrom a {q} (s :: w) ↔
      ∃ p ∈ reachedByEpsilon a q, ∃ r ∈ symbolTransitionsD a p s, SpecFrom a {r} w := by
  have hstep : StepSet a {q} s =
      {r | ∃ p ∈ ({p | p ∈ reachedByEpsilon a q} : Set Nat),
        r ∈ {r' | r' ∈ symbolTransitionsD a p s}} := by
    ext r
    unfold StepSet
    constructor
    · rintro ⟨p, hp, hr⟩
      obtain ⟨q0, hq0, hreach⟩ := hp
      rw [Set.mem_singleton_iff] at hq0
      rw [hq0] at hreach
      exact ⟨p, (reachedByEpsilon_mem hwf q p).mpr hreach, hr⟩
    · rintro ⟨p, hp, hr⟩
      exact ⟨p, ⟨q, rfl, (reachedByEpsilon_mem hwf q p).mp hp⟩, hr⟩
  show SpecFrom a (w.foldl (StepSet a) (StepSet a {q} s)) [] ↔ _
  constructor
  · intro h
    have h2 : SpecFrom a (StepSet a {q} s) w := h
    rw [hstep, specFrom_biUnion] at h2
    obtain ⟨p, hp, h3⟩ := h2
    rw [specFrom_list] at h3
    obtain ⟨r, hr, h4⟩ := h3
    exact ⟨p, hp, r, hr, h4⟩
  · rintro ⟨p, hp, r, hr, h4⟩
    show SpecFrom a (StepSet a {q} s) w
    rw [hstep, specFrom_biUnion]
    refine ⟨p, hp, ?_⟩
    rw [specFrom_list]
    exact ⟨r, hr, h4⟩

lemma acceptedFromState_iff (a : Automaton S) (hwf : WF a) :
    ∀ (w : List S) (q : Nat), acceptedFromState a q w = true ↔ SpecFrom a {q} w := by
  intro w
  induction w with
  | nil =>
      intro q
      show (reachedByEpsilon a q).any (fun r => acceptingD a r) = true ↔ _
      rw [List.any_eq_true]
      unfold SpecFrom
      simp only [List.foldl_nil]
      constructor
      · rintro ⟨r, hr, hacc⟩
        exact ⟨r, ⟨q, rfl, (reachedByEpsilon_mem hwf q r).mp hr⟩, hacc⟩
      · rintro ⟨r, ⟨q0, hq0, hreach⟩, hacc⟩
        rw [Set.mem_singleton_iff] at hq0
        rw [hq0] at hreach
        exact ⟨r, (reachedByEpsilon_mem hwf q r).mpr hreach, hacc⟩
  | cons s w ih =>
      intro q
      rw [specFrom_cons a hwf q s w]
      show (if emptyTransitionsD a q = [] then
          (symbolTransitionsD a q s).any (fun r => acceptedFromState a r w)
        else
          (dedupKeep (((reachedByEpsilon a q).map
            (fun r => symbolTransitionsD a r s)).flatten)).any
            (fun r => acceptedFromState a r w)) = true ↔ _
      split
      · rename_i hemp
        rw [List.any_eq_true]
        have heps : reachedByEpsilon a q = [q] := by
          unfold reachedByEpsilon
          rw [if_pos hemp]
        rw [heps]
        constructor
        · rintro ⟨r, hr, hacc⟩
          exact ⟨q, List.mem_singleton.mpr rfl, r, hr, (ih r).mp hacc⟩
        · rintro ⟨p, hp, r, hr, hspec⟩
          rcases List.mem_singleton.mp hp with rfl
          exact ⟨r, hr, (ih r).mpr hspec⟩
      · rw [List.any_eq_true]
        constructor
        · rintro ⟨r, hr, hacc⟩
          rw [mem_dedupKeep, List.mem_flatten] at hr
          obtain ⟨ys, hys, hr⟩ := hr
          rw [List.mem_map] at hys
          obtain ⟨p, hp, rfl⟩ := hys
          exact ⟨p, hp, r, hr, (ih r).mp hacc⟩
        · rintro ⟨p, hp, r, hr, hspec⟩
          refine ⟨r, ?_, (ih r).mpr hspec⟩
          rw [mem_dedupKeep, List.mem_flatten]
          exact ⟨symbolTransitionsD a p s, List.mem_map.mpr ⟨p, hp, rfl⟩, hr⟩

/-- Claim C4: `accepted` returns true exactly when the ε-closure of the
folded step sets (starting from the ε-closure of the initial state) meets
the accepting set; in particular the empty word is accepted exactly when
ε-closure({q₀}) contains an accepting state.  The proofs of
`reachedByEpsilon_mem` establish that the BFS with its visited set computes
this closure within the embedded fuel even on cyclic ε-graphs, which is the
termination content of the claim. -/
theorem claimC4_acceptance (a : Automaton S) (hwf : WF a) :
    (∀ w : List S, accepted a w = true ↔ AcceptsSpec a w) ∧
      (accepted a [] = true ↔ ∃ q ∈ EpsClosure a {a.initial}, acceptingD a q = true) := by
  have hmain : ∀ w, accepted a w = true ↔ AcceptsSpec a w := by
    intro w
    unfold accepted AcceptsSpec
    rw [acceptedFromState_iff a hwf w a.initial]
    exact (specFrom_closure a {a.initial} w).symm
  refine ⟨hmain, ?_⟩
  rw [hmain []]
  unfold AcceptsSpec SpecFrom
  simp only [List.foldl_nil]
  rw [epsClosure_idem]

/-- A 2-state automaton with an ε-cycle (0 → 1 → 0). -/
def c4In : Automaton Char :=
  ⟨['a'], 2, 0, [false, true], [[(none, [1])], [(none, [0]), (some 'a', [1])]]⟩

/-- Witness for C4 at the concrete ε-cyclic automaton `c4In`. -/
theorem claimC4_witness :
    WF c4In ∧
      ((∀ w : List Char, accepted c4In w = true ↔ AcceptsSpec c4In w) ∧
        (accepted c4In [] = true ↔
          ∃ q ∈ EpsClosure c4In {c4In.initial}, acceptingD c4In q = true)) :=
  ⟨by decide, claimC4_acceptance c4In (by decide)⟩

/-! ## Claim C5: ε-elimination -/

omit [DecidableEq S] in
lemma getD_map_range {α : Type} (f : Nat → α) {n q : Nat} (hq : q < n) (d : α) :
    ((List.range n).map f).getD q d = f q := by
  induction n generalizing q with
  | zero => omega
  | succ n ih =>
      rw [List.range_succ, List.map_append]
      by_cases h : q < n
      · rw [List.getD_append]
        · exact ih h
        · simpa using h
      · have hq' : q = n := by omega
        subst hq'
        rw [List.getD_append_right]
        · simp
        · simp

lemma alookup_cons {K V : Type} [DecidableEq K] (p : K × V) (m : List (K × V)) (k : K) :
    alookup k (p :: m) = if p.1 = k then some p.2 else alookup k m := rfl

lemma alookup_entryMap {K : Type} [DecidableEq K] (m : List (K × List Nat)) (k k' : K)
    (v : Nat) :
    alookup k' (m.map (fun p => if p.1 = k then (p.1, p.2 ++ [v]) else p)) =
      if k' = k then (alookup k' m).map (fun ys => ys ++ [v]) else alookup k' m := by
  induction m with
  | nil => simp [alookup]
  | cons p m ih =>
      by_cases hp : p.1 = k <;> by_cases hk' : p.1 = k'
      · have h1 : k' = k := by rw [← hk', hp]
        simp [alookup_cons, hp, hk', h1]
      · have h1 : ¬ k' = k := fun h => hk' (hp.trans h.symm)
        have h2 : ¬ k = k' := fun h => h1 h.symm
        simp [alookup_cons, hp, hk', h1, h2, ih]
      · have h1 : ¬ k' = k := fun h => hp (hk'.trans h)
        have h2 : ¬ k = k' := fun h => h1 h.symm
        simp [alookup_cons, hp, hk', h1, h2]
      · simp [alookup_cons, hp, hk', ih]

lemma alookup_append {K V : Type} [DecidableEq K] (m1 m2 : List (K × V)) (k : K) :
    alookup k (m1 ++ m2) =
      match alookup k m1 with
      | some v => some v
      | none => alookup k m2 := by
  induction m1 with
  | nil => simp [alookup]
  | cons p m ih =>
      by_cases hp : p.1 = k
      · simp [alookup, hp]
      · simp only [List.cons_append, alookup, if_neg hp]
        exact ih

lemma alookup_pushEntry {K : Type} [DecidableEq K] (m : List (K × List Nat)) (k k' : K)
    (v : Nat) :
    (alookup k' (pushEntry m k v)).getD [] =
      if k' = k then (alookup k' m).getD [] ++ [v] else (alookup k' m).getD [] := by
  unfold pushEntry
  split
  · rename_i hsome
    rw [alookup_entryMap]
    by_cases hk : k' = k
    · rw [if_pos hk, if_pos hk]
      cases halk : alookup k' m with
      | none =>
          rw [hk] at halk
          rw [halk] at hsome
          exact absurd hsome (by simp)
      | some ys => simp
    · rw [if_neg hk, if_neg hk]
  · rename_i hnone
    rw [alookup_append]
    by_cases hk : k' = k
    · have halk : alookup k' m = none := by
        rw [hk]
        exact Option.not_isSome_iff_eq_none.mp hnone
      rw [halk, if_pos hk]
      simp [alookup, hk.symm, halk]
    · have hk2 : ¬ k = k' := fun h => hk h.symm
      cases halk : alookup k' m with
      | none => simp [alookup_cons, alookup, halk, if_neg hk, hk2]
      | some ys => simp [halk, if_neg hk]

lemma buildMap_valD_aux {K : Type} [DecidableEq K] :
    ∀ (l : List (K × Nat)) (m : List (K × List Nat)) (k : K),
      (alookup k (l.foldl (fun m p => pushEntry m p.1 p.2) m)).getD [] =
        (alookup k m).getD [] ++ (l.filter (fun p => p.1 = k)).map Prod.snd := by
  intro l
  induction l with
  | nil => intro m k; simp
  | cons p l ih =>
      intro m k
      rw [List.foldl_cons, ih]
      by_cases hk : p.1 = k
      · rw [List.filter_cons_of_pos (by simpa using hk), alookup_pushEntry]
        rw [if_pos hk.symm]
        simp
      · rw [List.filter_cons_of_neg (by simpa using hk), alookup_pushEntry]
        rw [if_neg (fun h => hk h.symm)]

lemma buildMap_valD {K : Type} [DecidableEq K] (l : List (K × Nat)) (k : K) :
    (alookup k (buildMap l)).getD [] = (l.filter (fun p => p.1 = k)).map Prod.snd := by
  unfold buildMap
  rw [buildMap_valD_aux]
  simp [alookup]

lemma mem_transitionsList_some {a : Automaton S} {x r : Nat} {s : S} :
    (some s, r) ∈ transitionsList a x ↔ s ∈ a.alphabet ∧ r ∈ symbolTransitionsD a x s := by
  unfold transitionsList
  rw [List.mem_append]
  constructor
  · rintro (h | h)
    · rw [List.mem_flatten] at h
      obtain ⟨ys, hys, hm⟩ := h
      rw [List.mem_map] at hys
      obtain ⟨c, hc, rfl⟩ := hys
      rw [List.mem_map] at hm
      obtain ⟨t, ht, hpair⟩ := hm
      obtain ⟨hcs, rfl⟩ : some c = some s ∧ t = r := by
        constructor
        · exact congrArg Prod.fst hpair
        · exact congrArg Prod.snd hpair
      rw [Option.some_inj] at hcs
      subst hcs
      exact ⟨hc, ht⟩
    · rw [List.mem_map] at h
      obtain ⟨t, _, hpair⟩ := h
      exact absurd (congrArg Prod.fst hpair) (by simp)
  · rintro ⟨hs, hr⟩
    left
    rw [List.mem_flatten]
    refine ⟨(symbolTransitionsD a x s).map (fun t => (some s, t)), ?_, ?_⟩
    · rw [List.mem_map]
      exact ⟨s, hs, rfl⟩
    · rw [List.mem_map]
      exact ⟨r, hr, rfl⟩

lemma fromParts_fields {alph : List S} {init : Nat} {acc : List Bool}
    {tr : List (List (Option S × Nat))} {a : Automaton S}
    (h : Automaton.fromParts alph init acc tr = some a) :
    a.alphabet = alph ∧ a.size = acc.length ∧ a.initial = init ∧ a.accepting = acc ∧
      a.transitions = tr.map buildMap := by
  unfold Automaton.fromParts at h
  split at h
  · cases h; exact ⟨rfl, rfl, rfl, rfl, rfl⟩
  · exact absurd h (by simp)

lemma fromParts_some {alph : List S} {init : Nat} {acc : List Bool}
    {tr : List (List (Option S × Nat))} (h1 : tr.length = acc.length)
    (h2 : init < acc.length) (h3 : ∀ ts ∈ tr, ∀ p ∈ ts, p.2 < acc.length) :
    Automaton.fromParts alph init acc tr =
      some ⟨alph, acc.length, init, acc, tr.map buildMap⟩ := by
  unfold Automaton.fromParts
  rw [if_pos]
  refine ⟨h1, h2, ?_⟩
  simp only [List.all_eq_true, decide_eq_true_eq]
  exact h3

lemma transitionsList_snd_bound {a : Automaton S} (hwf : WF a) {x : Nat}
    {p : Option S × Nat} (hp : p ∈ transitionsList a x) : p.2 < a.size := by
  unfold transitionsList at hp
  rcases List.mem_append.mp hp with h | h
  · rw [List.mem_flatten] at h
    obtain ⟨ys, hys, hm⟩ := h
    rw [List.mem_map] at hys
    obtain ⟨c, hc, rfl⟩ := hys
    rw [List.mem_map] at hm
    obtain ⟨t, ht, rfl⟩ := hm
    exact symb_bound hwf x c t ht
  · rw [List.mem_map] at h
    obtain ⟨t, ht, rfl⟩ := h
    exact eps_bound hwf x t ht

lemma key_in_alphabet {a : Automaton S} (hkeys : KeysInAlphabet a) {x r : Nat} {s : S}
    (hr : r ∈ symbolTransitionsD a x s) : s ∈ a.alphabet := by
  unfold symbolTransitionsD at hr
  cases hl : alookup (some s) (a.transitions.getD x []) with
  | none => rw [hl] at hr; exact absurd hr (List.not_mem_nil r)
  | some ys =>
      have hmem := alookup_mem hl
      rcases getD_mem_or_default a.transitions x [] with hrow | hrow
      · rcases hkeys _ hrow _ hmem with h | ⟨c, hc, h⟩
        · exact absurd h (by simp)
        · rw [Option.some_inj] at h
          rw [h]; exact hc
      · rw [hrow] at hmem
        exact absurd hmem (List.not_mem_nil _)

lemma reach_of_no_eps {a : Automaton S} {q x : Nat} (h : emptyTransitionsD a q = [])
    (hr : Relation.ReflTransGen (EpsStep a) q x) : x = q := by
  rcases Relation.ReflTransGen.cases_head hr with heq | ⟨b, hb, _⟩
  · exact heq.symm
  · unfold EpsStep at hb
    rw [h] at hb
    exact absurd hb (List.not_mem_nil b)

/-- The abstract language-equality argument: a single-symbol automaton `b`
whose symbol successors are the symbol successors of the ε-closure in `a`
and whose accepting states are the states whose ε-closure meets `a`'s
accepting set has the same specified acceptance as `a` from any state set. -/
lemma ssnfaLang {a b : Automaton S}
    (heps : ∀ q, emptyTransitionsD b q = [])
    (hsym : ∀ q s r, r ∈ symbolTransitionsD b q s ↔
      ∃ x, Relation.ReflTransGen (EpsStep a) q x ∧ r ∈ symbolTransitionsD a x s)
    (hacc : ∀ q, acceptingD b q = true ↔
      ∃ x, Relation.ReflTransGen (EpsStep a) q x ∧ acceptingD a x = true) :
    ∀ (Q : Set Nat) (w : List S), SpecFrom b Q w ↔ SpecFrom a Q w := by
  have hclb : ∀ Q : Set Nat, EpsClosure b Q = Q := by
    intro Q
    ext r
    constructor
    · rintro ⟨q, hq, hreach⟩
      rw [reach_of_no_eps (heps q) hreach]
      exact hq
    · intro h
      exact ⟨r, h, Relation.ReflTransGen.refl⟩
  have hstep : ∀ (Q : Set Nat) (s : S), StepSet b Q s = StepSet a Q s := by
    intro Q s
    ext r
    unfold StepSet
    rw [hclb]
    constructor
    · rintro ⟨p, hp, hr⟩
      obtain ⟨x, hreach, hr⟩ := (hsym p s r).mp hr
      exact ⟨x, ⟨p, hp, hreach⟩, hr⟩
    · rintro ⟨x, ⟨p, hp, hreach⟩, hr⟩
      exact ⟨p, hp, (hsym p s r).mpr ⟨x, hreach, hr⟩⟩
  have hfold : ∀ (w : List S) (Q : Set Nat),
      w.foldl (StepSet b) Q = w.foldl (StepSet a) Q := by
    intro w
    induction w with
    | nil => intro Q; rfl
    | cons s w ih =>
        intro Q
        simp only [List.foldl_cons]
        rw [hstep, ih]
  intro Q w
  unfold SpecFrom
  rw [hfold, hclb]
  constructor
  · rintro ⟨q, hq, haccq⟩
    obtain ⟨x, hreach, hx⟩ := (hacc q).mp haccq
    exact ⟨x, ⟨q, hq, hreach⟩, hx⟩
  · rintro ⟨x, ⟨q, hq, hreach⟩, hx⟩
    exact ⟨q, hq, (hacc q).mpr ⟨x, hreach, hx⟩⟩

omit [DecidableEq S] in
lemma bool_eq_of_iff {x y : Bool} (h : x = true ↔ y = true) : x = y := by
  cases x <;> cases y <;> simp_all

/-- Claim C5: for a well-formed automaton honoring invariant 4 of §3 (symbol
keys lie in the alphabet), `single_symbol_nfa_from` returns an automaton
with the same alphabet, state count and initial state, without ε-transitions,
accepting the same words; a single-symbol input is returned as a value copy
(equal value — independence is the value semantics of the embedding). -/
theorem claimC5_single_symbol_form (a : Automaton S) (hwf : WF a)
    (hkeys : KeysInAlphabet a) :
    ∃ b, singleSymbolNfaFrom a = some b ∧ b.alphabet = a.alphabet ∧ b.size = a.size ∧
      b.initial = a.initial ∧ isSingleSymbol b = true ∧
      (∀ w : List S, accepted b w = accepted a w) ∧
      (isSingleSymbol a = true → b = a) := by
  by_cases hss : isSingleSymbol a = true
  · refine ⟨a, ?_, rfl, rfl, rfl, hss, fun w => rfl, fun _ => rfl⟩
    unfold singleSymbolNfaFrom
    rw [if_pos hss]
  · have hlen1 : ((List.range a.size).map (ssTrsF a)).length =
        ((List.range a.size).map (ssAccF a)).length := by simp
    have hlen2 : a.initial < ((List.range a.size).map (ssAccF a)).length := by
      simpa using hwf.2.2.1
    have hbnd : ∀ ts ∈ (List.range a.size).map (ssTrsF a), ∀ p ∈ ts,
        p.2 < ((List.range a.size).map (ssAccF a)).length := by
      intro ts hts p hp
      simp only [List.length_map, List.length_range]
      rw [List.mem_map] at hts
      obtain ⟨q, hq, rfl⟩ := hts
      unfold ssTrsF at hp
      rw [List.mem_flatten] at hp
      obtain ⟨ys, hys, hp⟩ := hp
      rw [List.mem_map] at hys
      obtain ⟨x, hx, rfl⟩ := hys
      exact transitionsList_snd_bound hwf (List.mem_of_mem_filter hp)
    have he : singleSymbolNfaFrom a = some ⟨a.alphabet,
        ((List.range a.size).map (ssAccF a)).length, a.initial,
        (List.range a.size).map (ssAccF a),
        ((List.range a.size).map (ssTrsF a)).map buildMap⟩ := by
      unfold singleSymbolNfaFrom
      rw [if_neg hss]
      exact fromParts_some hlen1 hlen2 hbnd
    obtain ⟨b, he⟩ : ∃ b, singleSymbolNfaFrom a = some b := ⟨_, he⟩
    have hfp : Automaton.fromParts a.alphabet a.initial
        ((List.range a.size).map (ssAccF a)) ((List.range a.size).map (ssTrsF a)) = some b := by
      rw [← he]
      unfold singleSymbolNfaFrom
      rw [if_neg hss]
    obtain ⟨halph, hsize0, hinit, haccv, htrv⟩ := fromParts_fields hfp
    have hsize : b.size = a.size := by rw [hsize0]; simp
    have hrow : ∀ q, b.transitions.getD q [] =
        if q < a.size then buildMap (ssTrsF a q) else [] := by
      intro q
      rw [htrv, List.map_map]
      by_cases hq : q < a.size
      · rw [if_pos hq]
        exact getD_map_range _ hq _
      · rw [if_neg hq]
        apply List.getD_eq_default
        simp only [List.length_map, List.length_range]
        omega
    have haccD : ∀ q, acceptingD b q = if q < a.size then ssAccF a q else false := by
      intro q
      unfold acceptingD
      rw [haccv]
      by_cases hq : q < a.size
      · rw [if_pos hq]
        exact getD_map_range _ hq _
      · rw [if_neg hq]
        apply List.getD_eq_default
        simp only [List.length_map, List.length_range]
        omega
    have hepsb : ∀ q, emptyTransitionsD b q = [] := by
      intro q
      unfold emptyTransitionsD
      rw [hrow]
      by_cases hq : q < a.size
      · rw [if_pos hq, buildMap_valD]
        have hfil : (ssTrsF a q).filter (fun p => p.1 = (none : Option S)) = [] := by
          rw [List.filter_eq_nil_iff]
          intro p hp
          unfold ssTrsF at hp
          rw [List.mem_flatten] at hp
          obtain ⟨ys, hys, hp⟩ := hp
          rw [List.mem_map] at hys
          obtain ⟨x, hx, rfl⟩ := hys
          have := List.of_mem_filter hp
          simp only [Option.isSome_iff_exists] at this
          obtain ⟨c, hc⟩ := this
          simp [hc]
        rw [hfil]
        rfl
      · rw [if_neg hq]
        rfl
    have hsymb : ∀ q s, symbolTransitionsD b q s =
        if q < a.size then ((ssTrsF a q).filter (fun p => p.1 = some s)).map Prod.snd
        else [] := by
      intro q s
      unfold symbolTransitionsD
      rw [hrow]
      by_cases hq : q < a.size
      · rw [if_pos hq, if_pos hq, buildMap_valD]
      · rw [if_neg hq, if_neg hq]
        rfl
    have hsymMem : ∀ q s r, r ∈ symbolTransitionsD b q s ↔
        ∃ x, Relation.ReflTransGen (EpsStep a) q x ∧ r ∈ symbolTransitionsD a x s := by
      intro q s r
      rw [hsymb q s]
      by_cases hq : q < a.size
      · rw [if_pos hq]
        constructor
        · intro hmem
          rw [List.mem_map] at hmem
          obtain ⟨p, hp, rfl⟩ := hmem
          rw [List.mem_filter] at hp
          obtain ⟨hp, hkey⟩ := hp
          rw [decide_eq_true_eq] at hkey
          unfold ssTrsF at hp
          rw [List.mem_flatten] at hp
          obtain ⟨ys, hys, hp⟩ := hp
          rw [List.mem_map] at hys
          obtain ⟨x, hx, rfl⟩ := hys
          have hp' := List.mem_of_mem_filter hp
          have hpair : (some s, p.2) ∈ transitionsList a x := by
            rw [← hkey, Prod.mk.eta]
            exact hp'
          obtain ⟨hs, hr⟩ := mem_transitionsList_some.mp hpair
          exact ⟨x, (reachedByEpsilon_mem hwf q x).mp hx, hr⟩
        · rintro ⟨x, hreach, hr⟩
          have hs : s ∈ a.alphabet := key_in_alphabet hkeys hr
          rw [List.mem_map]
          refine ⟨(some s, r), ?_, rfl⟩
          rw [List.mem_filter]
          refine ⟨?_, by simp⟩
          unfold ssTrsF
          rw [List.mem_flatten]
          refine ⟨(transitionsList a x).filter (fun p => p.1.isSome), ?_, ?_⟩
          · rw [List.mem_map]
            exact ⟨x, (reachedByEpsilon_mem hwf q x).mpr hreach, rfl⟩
          · rw [List.mem_filter]
            exact ⟨mem_transitionsList_some.mpr ⟨hs, hr⟩, by simp⟩
      · rw [if_neg hq]
        constructor
        · intro h
          exact absurd h (List.not_mem_nil r)
        · rintro ⟨x, hreach, hr⟩
          have hx := reach_of_no_eps (emptyTransitionsD_oob hwf (Nat.le_of_not_lt hq)) hreach
          rw [hx, symbolTransitionsD_oob hwf (Nat.le_of_not_lt hq)] at hr
          exact absurd hr (List.not_mem_nil r)
    have haccIff : ∀ q, acceptingD b q = true ↔
        ∃ x, Relation.ReflTransGen (EpsStep a) q x ∧ acceptingD a x = true := by
      intro q
      rw [haccD]
      by_cases hq : q < a.size
      · rw [if_pos hq]
        unfold ssAccF
        rw [List.any_eq_true]
        constructor
        · rintro ⟨x, hx, hacc⟩
          exact ⟨x, (reachedByEpsilon_mem hwf q x).mp hx, hacc⟩
        · rintro ⟨x, hreach, hacc⟩
          exact ⟨x, (reachedByEpsilon_mem hwf q x).mpr hreach, hacc⟩
      · rw [if_neg hq]
        constructor
        · intro h
          exact absurd h (by simp)
        · rintro ⟨x, hreach, hacc⟩
          rw [reach_of_no_eps (emptyTransitionsD_oob hwf (Nat.le_of_not_lt hq)) hreach] at hacc
          have : acceptingD a q = false := by
            unfold acceptingD
            apply List.getD_eq_default
            rw [hwf.1]
            omega
          rw [this] at hacc
          exact absurd hacc (by simp)
    have hssb : isSingleSymbol b = true := by
      unfold isSingleSymbol
      rw [List.all_eq_true]
      intro q hq
      simp [hepsb]
    have hwfb : WF b := singleSymbolNfaFrom_wf hwf he
    have hlang : ∀ w : List S, accepted b w = accepted a w := by
      intro w
      apply bool_eq_of_iff
      unfold accepted
      rw [acceptedFromState_iff b hwfb w b.initial,
        acceptedFromState_iff a hwf w a.initial, hinit]
      exact ssnfaLang hepsb hsymMem haccIff {a.initial} w
    exact ⟨b, he, halph, hsize, hinit, hssb, hlang, fun h => absurd h hss⟩

/-- Witness for C5 at the concrete ε-cyclic automaton `c4In`. -/
theorem claimC5_witness :
    WF c4In ∧ KeysInAlphabet c4In ∧
      ∃ b, singleSymbolNfaFrom c4In = some b ∧ b.alphabet = c4In.alphabet ∧
        b.size = c4In.size ∧ b.initial = c4In.initial ∧ isSingleSymbol b = true ∧
        (∀ w : List Char, accepted b w = accepted c4In w) ∧
        (isSingleSymbol c4In = true → b = c4In) :=
  ⟨by decide, by decide, claimC5_single_symbol_form c4In (by decide) (by decide)⟩

/-! ## Claim C6: state elimination

### Regex language lemmas -/

/-- Kleene star of a language, as finite concatenation. -/
inductive StarW (L : List S → Prop) : List S → Prop where
  | nil : StarW L []
  | cons {u v : List S} : L u → StarW L v → StarW L (u ++ v)

lemma rlang_string_iff {v w : List S} : RLang (Regex.String v) w ↔ w = v := by
  constructor
  · intro h; cases h; rfl
  · rintro rfl; exact RLang.str _

lemma rlang_union_iff {l r : Regex S} {w : List S} :
    RLang (Regex.Union l r) w ↔ RLang l w ∨ RLang r w := by
  constructor
  · intro h
    cases h with
    | unionLeft h => exact Or.inl h
    | unionRight h => exact Or.inr h
  · rintro (h | h)
    · exact RLang.unionLeft h
    · exact RLang.unionRight h

lemma rlang_concat_raw {l r : Regex S} {w : List S} :
    RLang (Regex.Concat l r) w ↔ ∃ u v, w = u ++ v ∧ RLang l u ∧ RLang r v := by
  constructor
  · intro h
    cases h with
    | cat hu hv => exact ⟨_, _, rfl, hu, hv⟩
  · rintro ⟨u, v, rfl, hu, hv⟩
    exact RLang.cat hu hv

lemma rlang_star_iff {e : Regex S} {w : List S} :
    RLang (Regex.KleeneStar e) w ↔ StarW (RLang e) w := by
  constructor
  · intro h
    generalize he : Regex.KleeneStar e = f at h
    induction h with
    | str v => exact absurd he (by simp)
    | cat hu hv ihu ihv => exact absurd he (by simp)
    | unionLeft h ih => exact absurd he (by simp)
    | unionRight h ih => exact absurd he (by simp)
    | starNil => exact StarW.nil
    | starCons hu hv ihu ihv =>
        injection he with h1
        subst h1
        exact StarW.cons hu (ihv rfl)
  · intro h
    induction h with
    | nil => exact RLang.starNil
    | cons hu _ ihv => exact RLang.starCons hu ihv

lemma stringVal_eq_some {l : Regex S} {v : List S} :
    Regex.stringVal l = some v ↔ l = Regex.String v := by
  cases l <;> simp [Regex.stringVal]

lemma rlang_concat_smart {l r : Regex S} {w : List S} :
    RLang (Regex.concat l r) w ↔ ∃ u v, w = u ++ v ∧ RLang l u ∧ RLang r v := by
  unfold Regex.concat
  by_cases h1 : Regex.stringVal l = some []
  · rw [if_pos h1]
    rw [stringVal_eq_some] at h1
    subst h1
    constructor
    · intro h
      exact ⟨[], w, rfl, RLang.str [], h⟩
    · rintro ⟨u, v, rfl, hu, hv⟩
      rw [rlang_string_iff] at hu
      subst hu
      exact hv
  · rw [if_neg h1]
    by_cases h2 : Regex.stringVal r = some []
    · rw [if_pos h2]
      rw [stringVal_eq_some] at h2
      subst h2
      constructor
      · intro h
        exact ⟨w, [], by simp, h, RLang.str []⟩
      · rintro ⟨u, v, rfl, hu, hv⟩
        rw [rlang_string_iff] at hv
        subst hv
        rw [List.append_nil]
        exact hu
    · rw [if_neg h2]
      cases hsl : Regex.stringVal l with
      | none => exact rlang_concat_raw
      | some lv =>
          cases hsr : Regex.stringVal r with
          | none => exact rlang_concat_raw
          | some rv =>
              rw [stringVal_eq_some] at hsl hsr
              subst hsl; subst hsr
              show RLang (Regex.String (lv ++ rv)) w ↔ _
              rw [rlang_string_iff]
              constructor
              · rintro rfl
                exact ⟨lv, rv, rfl, RLang.str lv, RLang.str rv⟩
              · rintro ⟨u, v, rfl, hu, hv⟩
                rw [rlang_string_iff] at hu hv
                subst hu; subst hv
                rfl

lemma starW_congr {L1 L2 : List S → Prop} (h : ∀ u, L1 u ↔ L2 u) {w : List S} :
    StarW L1 w ↔ StarW L2 w := by
  constructor
  · intro hw
    induction hw with
    | nil => exact StarW.nil
    | cons hu _ ihv => exact StarW.cons ((h _).mp hu) ihv
  · intro hw
    induction hw with
    | nil => exact StarW.nil
    | cons hu _ ihv => exact StarW.cons ((h _).mpr hu) ihv

lemma starW_false {L : List S → Prop} (h : ∀ u, ¬ L u) {w : List S} :
    StarW L w ↔ w = [] := by
  constructor
  · intro hw
    cases hw with
    | nil => rfl
    | cons hu _ => exact absurd hu (h _)
  · rintro rfl
    exact StarW.nil

lemma rlang_kleene_star_smart {e : Regex S} {w : List S} :
    RLang (Regex.kleene_star e) w ↔ StarW (RLang e) w := by
  unfold Regex.kleene_star
  by_cases hv : Regex.stringVal e = some []
  · rw [if_pos hv]
    rw [stringVal_eq_some] at hv
    subst hv
    rw [rlang_string_iff]
    constructor
    · rintro rfl; exact StarW.nil
    · intro h
      induction h with
      | nil => rfl
      | cons hu _ ihv =>
          rw [rlang_string_iff] at hu
          subst hu
          simpa using ihv
  · rw [if_neg hv]
    exact rlang_star_iff

/-! ### Association-list lemmas for the elimination table -/

lemma alookup_overwriteMap {m : List (Nat × Regex S)} (k : Nat) (v : Regex S) (j : Nat) :
    alookup j (m.map (fun p => if p.1 = k then (k, v) else p)) =
      if j = k then (alookup k m).map (fun _ => v) else alookup j m := by
  induction m with
  | nil => by_cases hj : j = k <;> simp [alookup, hj]
  | cons p m ih =>
      by_cases hp : p.1 = k
      · by_cases hj : j = k
        · have h1 : k = j := hj.symm
          rw [List.map_cons, if_pos hp, alookup_cons, if_pos h1, if_pos hj, alookup_cons,
            if_pos hp]
          rfl
        · have h1 : ¬ k = j := fun h => hj h.symm
          have h2 : ¬ p.1 = j := by rw [hp]; exact h1
          simp [alookup_cons, hp, hj, h1, h2, ih]
      · by_cases hpj : p.1 = j
        · have hj : ¬ j = k := fun h => hp (by rw [hpj, h])
          simp [alookup_cons, hp, hpj, hj]
        · simp [alookup_cons, hp, hpj, ih]

lemma alookup_rinsert (m : List (Nat × Regex S)) (k : Nat) (v : Regex S) (j : Nat) :
    alookup j (rinsert m k v) = if j = k then some v else alookup j m := by
  unfold rinsert
  split
  · rename_i hsome
    rw [alookup_overwriteMap]
    by_cases hj : j = k
    · rw [if_pos hj, if_pos hj]
      obtain ⟨old, hold⟩ := Option.isSome_iff_exists.mp hsome
      rw [hold]
      rfl
    · rw [if_neg hj, if_neg hj]
  · rename_i hnone
    rw [alookup_append]
    have h0 : alookup k m = none := Option.not_isSome_iff_eq_none.mp hnone
    by_cases hj : j = k
    · rw [hj, h0]
      show alookup k [(k, v)] = if k = k then some v else none
      rw [alookup_cons, if_pos rfl, if_pos rfl]
    · have h1 : ¬ k = j := fun h => hj h.symm
      cases h : alookup j m with
      | some o => rw [if_neg hj]
      | none =>
          show alookup j [(k, v)] = if j = k then some v else none
          rw [alookup_cons, if_neg h1, if_neg hj]
          rfl

lemma alookup_rremove (m : List (Nat × Regex S)) (k j : Nat) :
    alookup j (rremove m k) = if j = k then none else alookup j m := by
  unfold rremove
  induction m with
  | nil => by_cases hj : j = k <;> simp [alookup, hj]
  | cons p m ih =>
      by_cases hpk : p.1 = k
      · rw [List.filter_cons_of_neg (by simpa using hpk)]
        rw [ih]
        by_cases hj : j = k
        · rw [if_pos hj, if_pos hj]
        · have h2 : ¬ p.1 = j := by rw [hpk]; exact fun h => hj h.symm
          rw [if_neg hj, if_neg hj, alookup_cons, if_neg h2]
      · rw [List.filter_cons_of_pos (by simpa using hpk)]
        by_cases hpj : p.1 = j
        · have hj : ¬ j = k := fun h => hpk (by rw [hpj, h])
          rw [alookup_cons, if_pos hpj, if_neg hj, alookup_cons, if_pos hpj]
        · rw [alookup_cons, if_neg hpj, ih, alookup_cons]
          by_cases hj : j = k
          · rw [if_pos hj, if_pos hj]
          · rw [if_neg hj, if_neg hj, if_neg hpj]

lemma alookup_eq_none_iff {V : Type} (m : List (Nat × V)) (k : Nat) :
    alookup k m = none ↔ k ∉ m.map Prod.fst := by
  induction m with
  | nil => simp [alookup]
  | cons p m ih =>
      by_cases hp : p.1 = k
      · simp [alookup_cons, hp]
      · simp only [alookup_cons, if_neg hp, List.map_cons, List.mem_cons, ih]
        constructor
        · intro h
          rintro (h2 | h2)
          · exact hp h2.symm
          · exact h h2
        · intro h h2
          exact h (Or.inr h2)

lemma keys_rinsert (m : List (Nat × Regex S)) (k : Nat) (v : Regex S) :
    (rinsert m k v).map Prod.fst =
      if (alookup k m).isSome then m.map Prod.fst else m.map Prod.fst ++ [k] := by
  unfold rinsert
  split
  · rw [List.map_map]
    apply List.map_congr_left
    intro p hp
    by_cases hpk : p.1 = k
    · simp [hpk]
    · simp [hpk]
  · rw [List.map_append]
    rfl

lemma nodup_keys_rinsert {m : List (Nat × Regex S)} {k : Nat} {v : Regex S}
    (h : (m.map Prod.fst).Nodup) : ((rinsert m k v).map Prod.fst).Nodup := by
  rw [keys_rinsert]
  split
  · exact h
  · rename_i hnone
    have hk : k ∉ m.map Prod.fst :=
      (alookup_eq_none_iff m k).mp (Option.not_isSome_iff_eq_none.mp hnone)
    simp [List.nodup_append, h, hk]

lemma nodup_keys_rremove {m : List (Nat × Regex S)} {k : Nat}
    (h : (m.map Prod.fst).Nodup) : ((rremove m k).map Prod.fst).Nodup := by
  unfold rremove
  exact h.sublist (List.Sublist.map Prod.fst (List.filter_sublist m))

/-! ### Edges, paths, and the path semantics of acceptance -/

/-- One labelled edge of the elimination graph: a symbol transition
(spelling a one-symbol word), an ε-transition (spelling the empty word), or
the empty-word edge from an accepting state to the virtual sink `size`. -/
def EdgeL (a : Automaton S) (x y : Nat) (w : List S) : Prop :=
  (∃ s, w = [s] ∧ (some s, y) ∈ transitionsList a x) ∨
    (w = [] ∧ ((none : Option S), y) ∈ transitionsList a x) ∨
    (w = [] ∧ y = a.size ∧ acceptingD a x = true)

/-- Nonempty edge-paths whose intermediate states satisfy `allowed`;
the spelled word is the concatenation of the edge labels. -/
inductive PathL (E : Nat → Nat → List S → Prop) (allowed : Nat → Prop) :
    Nat → Nat → List S → Prop where
  | single {i j : Nat} {w : List S} : E i j w → PathL E allowed i j w
  | cons {i k j : Nat} {w1 w2 : List S} :
      E i k w1 → allowed k → PathL E allowed k j w2 → PathL E allowed i j (w1 ++ w2)

/-- Small-step acceptance from a state. -/
inductive AccFrom (a : Automaton S) : Nat → List S → Prop where
  | done {x : Nat} : acceptingD a x = true → AccFrom a x []
  | eps {x y : Nat} {w : List S} : y ∈ emptyTransitionsD a x → AccFrom a y w → AccFrom a x w
  | sym {x y : Nat} {s : S} {w : List S} :
      y ∈ symbolTransitionsD a x s → AccFrom a y w → AccFrom a x (s :: w)

lemma mem_transitionsList_none {a : Automaton S} {x r : Nat} :
    ((none : Option S), r) ∈ transitionsList a x ↔ r ∈ emptyTransitionsD a x := by
  unfold transitionsList
  rw [List.mem_append]
  constructor
  · rintro (h | h)
    · rw [List.mem_flatten] at h
      obtain ⟨ys, hys, hm⟩ := h
      rw [List.mem_map] at hys
      obtain ⟨c, hc, rfl⟩ := hys
      rw [List.mem_map] at hm
      obtain ⟨t, ht, hpair⟩ := hm
      exact absurd (congrArg Prod.fst hpair) (by simp)
    · rw [List.mem_map] at h
      obtain ⟨t, ht, hpair⟩ := h
      have h1 := congrArg Prod.snd hpair
      simp only at h1
      rw [← h1]
      exact ht
  · intro h
    right
    rw [List.mem_map]
    exact ⟨r, h, rfl⟩

lemma specFrom_mono {a : Automaton S} {Q1 Q2 : Set Nat} (hsub : Q1 ⊆ Q2) :
    ∀ {w : List S}, SpecFrom a Q1 w → SpecFrom a Q2 w := by
  have hcl : ∀ (Q1 Q2 : Set Nat), Q1 ⊆ Q2 → EpsClosure a Q1 ⊆ EpsClosure a Q2 := by
    rintro Q1 Q2 h r ⟨q, hq, hreach⟩
    exact ⟨q, h hq, hreach⟩
  have hst : ∀ (Q1 Q2 : Set Nat) (s : S), Q1 ⊆ Q2 → StepSet a Q1 s ⊆ StepSet a Q2 s := by
    rintro Q1 Q2 s h r ⟨q, hq, hr⟩
    exact ⟨q, hcl Q1 Q2 h hq, hr⟩
  have hfold : ∀ (w : List S) (Q1 Q2 : Set Nat), Q1 ⊆ Q2 →
      w.foldl (StepSet a) Q1 ⊆ w.foldl (StepSet a) Q2 := by
    intro w
    induction w with
    | nil => intro Q1 Q2 h; exact h
    | cons s w ih => intro Q1 Q2 h; exact ih _ _ (hst Q1 Q2 s h)
  intro w h
  obtain ⟨q, hq, hacc⟩ := h
  exact ⟨q, hcl _ _ (hfold w Q1 Q2 hsub) hq, hacc⟩

lemma specFrom_elem {a : Automaton S} {Q : Set Nat} {w : List S} :
    SpecFrom a Q w ↔ ∃ x ∈ Q, SpecFrom a {x} w := by
  have hQ : ({r | ∃ x ∈ Q, r ∈ ({x} : Set Nat)} : Set Nat) = Q := by
    ext r; simp
  have h2 := specFrom_biUnion a Q (fun x => {x}) w
  rw [hQ] at h2
  exact h2

lemma accFrom_eps_chain {a : Automaton S} {x p : Nat} {w : List S}
    (hreach : Relation.ReflTransGen (EpsStep a) x p) (h : AccFrom a p w) :
    AccFrom a x w := by
  induction hreach using Relation.ReflTransGen.head_induction_on with
  | refl => exact h
  | head hstep _ ih => exact AccFrom.eps hstep ih

lemma accFrom_iff_specFrom {a : Automaton S} :
    ∀ (w : List S) (x : Nat), AccFrom a x w ↔ SpecFrom a {x} w := by
  have fwd : ∀ (x : Nat) (w : List S), AccFrom a x w → SpecFrom a {x} w := by
    intro x w h
    induction h with
    | done hacc => exact ⟨_, ⟨_, rfl, Relation.ReflTransGen.refl⟩, hacc⟩
    | eps hy _ ih =>
        rename_i x' y' w' ha
        have hsub : ({y'} : Set Nat) ⊆ EpsClosure a {x'} := by
          rintro r hr
          rw [Set.mem_singleton_iff] at hr
          subst hr
          exact ⟨x', rfl, Relation.ReflTransGen.single hy⟩
        exact (specFrom_closure a _ _).mp (specFrom_mono hsub ih)
    | sym hy _ ih =>
        rename_i x' y' s' w' _
        have hsub : ({y'} : Set Nat) ⊆ StepSet a {x'} s' := by
          rintro r hr
          rw [Set.mem_singleton_iff] at hr
          subst hr
          exact ⟨x', ⟨x', rfl, Relation.ReflTransGen.refl⟩, hy⟩
        exact specFrom_mono hsub ih
  intro w
  induction w with
  | nil =>
      intro x
      refine ⟨fwd x [], ?_⟩
      intro h
      unfold SpecFrom at h
      rw [List.foldl_nil] at h
      obtain ⟨q, ⟨q0, hq0, hreach⟩, hacc⟩ := h
      rw [Set.mem_singleton_iff] at hq0
      rw [hq0] at hreach
      exact accFrom_eps_chain hreach (AccFrom.done hacc)
  | cons s w ih =>
      intro x
      refine ⟨fwd x (s :: w), ?_⟩
      intro h
      have h2 : SpecFrom a (StepSet a {x} s) w := h
      rw [specFrom_elem] at h2
      obtain ⟨y, hy, hspec⟩ := h2
      obtain ⟨p, ⟨p0, hp0, hreach⟩, hsym⟩ := hy
      rw [Set.mem_singleton_iff] at hp0
      rw [hp0] at hreach
      exact accFrom_eps_chain hreach (AccFrom.sym hsym ((ih y).mpr hspec))

lemma transitionsList_oob {a : Automaton S} (hwf : WF a) {x : Nat} (hx : a.size ≤ x) :
    transitionsList a x = [] := by
  unfold transitionsList
  simp [symbolTransitionsD_oob hwf hx, emptyTransitionsD_oob hwf hx]

lemma edgeL_src_lt {a : Automaton S} (hwf : WF a) {x y : Nat} {w : List S}
    (h : EdgeL a x y w) : x < a.size := by
  by_contra hx
  have hx' : a.size ≤ x := Nat.le_of_not_lt hx
  rcases h with ⟨s, _, hm⟩ | ⟨_, hm⟩ | ⟨_, _, hacc⟩
  · rw [transitionsList_oob hwf hx'] at hm
    exact absurd hm (List.not_mem_nil _)
  · rw [transitionsList_oob hwf hx'] at hm
    exact absurd hm (List.not_mem_nil _)
  · have : acceptingD a x = false := by
      unfold acceptingD
      apply List.getD_eq_default
      rw [hwf.1]
      exact hx'
    rw [this] at hacc
    exact absurd hacc (by simp)

lemma pathL_from_sink {a : Automaton S} (hwf : WF a) {P : Nat → Prop} {j : Nat}
    {w : List S} : ¬ PathL (EdgeL a) P a.size j w := by
  intro h
  cases h with
  | single e => exact absurd (edgeL_src_lt hwf e) (Nat.lt_irrefl _)
  | cons e _ _ => exact absurd (edgeL_src_lt hwf e) (Nat.lt_irrefl _)

lemma accFrom_to_pathL {a : Automaton S} (hkeys : KeysInAlphabet a) {x : Nat} {w : List S}
    (h : AccFrom a x w) : PathL (EdgeL a) (fun _ => True) x a.size w := by
  induction h with
  | done hacc => exact PathL.single (Or.inr (Or.inr ⟨rfl, rfl, hacc⟩))
  | eps hy _ ih =>
      have h2 := PathL.cons (Or.inr (Or.inl ⟨rfl, mem_transitionsList_none.mpr hy⟩))
        trivial ih
      simpa using h2
  | sym hy _ ih =>
      rename_i x' y' s' w' ha
      have hs : s' ∈ a.alphabet := key_in_alphabet hkeys hy
      exact PathL.cons (Or.inl ⟨s', rfl, mem_transitionsList_some.mpr ⟨hs, hy⟩⟩)
        trivial ih

lemma pathL_to_accFrom {a : Automaton S} (hwf : WF a) {P : Nat → Prop} :
    ∀ {x j : Nat} {w : List S}, PathL (EdgeL a) P x j w → j = a.size → AccFrom a x w := by
  intro x j w h
  induction h with
  | single e =>
      rintro rfl
      rcases e with ⟨s, rfl, hm⟩ | ⟨rfl, hm⟩ | ⟨rfl, _, hacc⟩
      · exact absurd (transitionsList_snd_bound hwf hm) (Nat.lt_irrefl _)
      · exact absurd (transitionsList_snd_bound hwf hm) (Nat.lt_irrefl _)
      · exact AccFrom.done hacc
  | cons e hP p ih =>
      rintro rfl
      rcases e with ⟨s, rfl, hm⟩ | ⟨rfl, hm⟩ | ⟨rfl, rfl, hacc⟩
      · have hmem := (mem_transitionsList_some.mp hm).2
        exact AccFrom.sym hmem (ih rfl)
      · have hmem := mem_transitionsList_none.mp hm
        exact AccFrom.eps hmem (ih rfl)
      · exact absurd p (pathL_from_sink hwf)

/-- The path semantics of acceptance: a word is accepted exactly when it
labels an edge-path from the initial state to the virtual sink. -/
lemma accepted_iff_pathL {a : Automaton S} (hwf : WF a) (hkeys : KeysInAlphabet a)
    (w : List S) :
    accepted a w = true ↔ PathL (EdgeL a) (fun _ => True) a.initial a.size w := by
  unfold accepted
  rw [acceptedFromState_iff a hwf w a.initial, ← accFrom_iff_specFrom]
  constructor
  · exact accFrom_to_pathL hkeys
  · intro h
    exact pathL_to_accFrom hwf h rfl

/-! ### Path algebra -/

lemma pathL_mono {E : Nat → Nat → List S → Prop} {P1 P2 : Nat → Prop}
    (h : ∀ k, P1 k → P2 k) {i j : Nat} {w : List S} (hp : PathL E P1 i j w) :
    PathL E P2 i j w := by
  induction hp with
  | single e => exact PathL.single e
  | cons e hP _ ih => exact PathL.cons e (h _ hP) ih

lemma pathL_trans {E : Nat → Nat → List S → Prop} {P : Nat → Prop} {i k j : Nat}
    {w1 w2 : List S} (h1 : PathL E P i k w1) (hk : P k) (h2 : PathL E P k j w2) :
    PathL E P i j (w1 ++ w2) := by
  induction h1 with
  | single e => exact PathL.cons e hk h2
  | cons e hP p ih =>
      rw [List.append_assoc]
      exact PathL.cons e hP (ih hk h2)

lemma starW_mono {L1 L2 : List S → Prop} (h : ∀ u, L1 u → L2 u) {w : List S}
    (hw : StarW L1 w) : StarW L2 w := by
  induction hw with
  | nil => exact StarW.nil
  | cons hu _ ihv => exact StarW.cons (h _ hu) ihv

lemma pathL_starW_glue {E : Nat → Nat → List S → Prop} {P : Nat → Prop} {k j : Nat}
    (hk : P k) : ∀ {w2 w3 : List S}, StarW (PathL E P k k) w2 → PathL E P k j w3 →
      PathL E P k j (w2 ++ w3) := by
  intro w2 w3 h2 h3
  induction h2 with
  | nil => simpa using h3
  | cons hu _ ih =>
      rw [List.append_assoc]
      exact pathL_trans hu hk ih

/-- The decomposition at a newly allowed intermediate state `k`: a path
whose intermediates lie in `D ∪ {k}` either avoids `k` entirely, or splits
as a `D`-path to `k`, finitely many `D`-loops at `k`, and a `D`-path from
`k` to the target. -/
lemma pathL_insert {E : Nat → Nat → List S → Prop} {D : Nat → Prop} {k : Nat}
    {i j : Nat} {w : List S} :
    PathL E (fun x => D x ∨ x = k) i j w ↔
      (PathL E D i j w ∨
        ∃ w1 w2 w3, w = w1 ++ (w2 ++ w3) ∧ PathL E D i k w1 ∧
          StarW (PathL E D k k) w2 ∧ PathL E D k j w3) := by
  constructor
  · intro h
    induction h with
    | single e => exact Or.inl (PathL.single e)
    | cons e hP p ih =>
        rename_i i' m j' u1 u2
        rcases hP with hD | rfl
        · rcases ih with ih | ⟨v1, v2, v3, rfl, h1, h2, h3⟩
          · exact Or.inl (PathL.cons e hD ih)
          · right
            exact ⟨u1 ++ v1, v2, v3, by rw [List.append_assoc], PathL.cons e hD h1, h2, h3⟩
        · rcases ih with ih | ⟨v1, v2, v3, rfl, h1, h2, h3⟩
          · right
            exact ⟨u1, [], u2, by simp, PathL.single e, StarW.nil, ih⟩
          · right
            refine ⟨u1, v1 ++ v2, v3, ?_, PathL.single e, StarW.cons h1 h2, h3⟩
            simp [List.append_assoc]
  · rintro (h | ⟨w1, w2, w3, rfl, h1, h2, h3⟩)
    · exact pathL_mono (fun x hx => Or.inl hx) h
    · have h1' : PathL E (fun x => D x ∨ x = k) i k w1 :=
        pathL_mono (fun x hx => Or.inl hx) h1
      have h2' : StarW (PathL E (fun x => D x ∨ x = k) k k) w2 :=
        starW_mono (fun u hu => pathL_mono (fun x hx => Or.inl hx) hu) h2
      have h3' : PathL E (fun x => D x ∨ x = k) k j w3 :=
        pathL_mono (fun x hx => Or.inl hx) h3
      exact pathL_trans h1' (Or.inr rfl) (pathL_starW_glue (Or.inr rfl) h2' h3')

/-- Changing the allowed set is harmless if it keeps every state that has an
outgoing edge (an intermediate state of a path always continues the path). -/
lemma pathL_change_allowed {E : Nat → Nat → List S → Prop} {P1 P2 : Nat → Prop}
    (h : ∀ k, (∃ y w', E k y w') → P2 k) {i j : Nat} {w : List S}
    (hp : PathL E P1 i j w) : PathL E P2 i j w := by
  induction hp with
  | single e => exact PathL.single e
  | cons e _ p ih =>
      refine PathL.cons e ?_ ih
      cases p with
      | single e2 => exact h _ ⟨_, _, e2⟩
      | cons e2 _ _ => exact h _ ⟨_, _, e2⟩

/-! ### Semantics of the seeded rows -/

/-- The single-edge language of a transition list toward a fixed target. -/
def LEdge (l : List (Option S × Nat)) (j : Nat) (w : List S) : Prop :=
  (∃ s, w = [s] ∧ (some s, j) ∈ l) ∨ (w = [] ∧ ((none : Option S), j) ∈ l)

lemma rlang_litOf {k : Option S} {w : List S} :
    RLang (litOf k) w ↔ (∃ s, k = some s ∧ w = [s]) ∨ (k = none ∧ w = []) := by
  cases k with
  | none => simp [litOf, rlang_string_iff]
  | some s => simp [litOf, rlang_string_iff]

lemma lEdge_pres {l : List (Option S × Nat)} {j : Nat} {w : List S} (h : LEdge l j w) :
    ∃ p ∈ l, p.2 = j := by
  rcases h with ⟨s, _, hm⟩ | ⟨_, hm⟩
  · exact ⟨(some s, j), hm, rfl⟩
  · exact ⟨(none, j), hm, rfl⟩

lemma pres_lEdge {l : List (Option S × Nat)} {j : Nat} (h : ∃ p ∈ l, p.2 = j) :
    ∃ w, LEdge l j w := by
  obtain ⟨p, hp, hj⟩ := h
  cases hk : p.1 with
  | some s =>
      refine ⟨[s], Or.inl ⟨s, rfl, ?_⟩⟩
      have : (some s, j) = p := by
        rw [← hk, ← hj, Prod.mk.eta]
      rw [this]
      exact hp
  | none =>
      refine ⟨[], Or.inr ⟨rfl, ?_⟩⟩
      have : ((none : Option S), j) = p := by
        rw [← hk, ← hj, Prod.mk.eta]
      rw [this]
      exact hp

lemma lEdge_append_singleton {l : List (Option S × Nat)} {p : Option S × Nat} {j : Nat}
    {w : List S} :
    LEdge (l ++ [p]) j w ↔ LEdge l j w ∨ (p.2 = j ∧ RLang (litOf p.1) w) := by
  unfold LEdge
  rw [rlang_litOf]
  constructor
  · rintro (⟨s, rfl, hm⟩ | ⟨rfl, hm⟩)
    · rcases List.mem_append.mp hm with hm | hm
      · exact Or.inl (Or.inl ⟨s, rfl, hm⟩)
      · rw [List.mem_singleton] at hm
        refine Or.inr ⟨?_, Or.inl ⟨s, ?_, rfl⟩⟩
        · exact congrArg Prod.snd hm.symm
        · exact congrArg Prod.fst hm.symm
    · rcases List.mem_append.mp hm with hm | hm
      · exact Or.inl (Or.inr ⟨rfl, hm⟩)
      · rw [List.mem_singleton] at hm
        refine Or.inr ⟨?_, Or.inr ⟨?_, rfl⟩⟩
        · exact congrArg Prod.snd hm.symm
        · exact congrArg Prod.fst hm.symm
  · rintro ((⟨s, rfl, hm⟩ | ⟨rfl, hm⟩) | ⟨hj, ⟨s, hk, rfl⟩ | ⟨hk, rfl⟩⟩)
    · exact Or.inl ⟨s, rfl, List.mem_append.mpr (Or.inl hm)⟩
    · exact Or.inr ⟨rfl, List.mem_append.mpr (Or.inl hm)⟩
    · refine Or.inl ⟨s, rfl, List.mem_append.mpr (Or.inr ?_)⟩
      rw [List.mem_singleton, ← hk, ← hj, Prod.mk.eta]
    · refine Or.inr ⟨rfl, List.mem_append.mpr (Or.inr ?_)⟩
      rw [List.mem_singleton, ← hk, ← hj, Prod.mk.eta]

lemma seedStep_lookup (m : List (Nat × Regex S)) (p : Option S × Nat) (j : Nat) :
    alookup j (seedStep m p) =
      if j = p.2 then
        some (match alookup p.2 m with
              | some old => Regex.union old (litOf p.1)
              | none => litOf p.1)
      else alookup j m := by
  unfold seedStep
  cases h : alookup p.2 m with
  | some old => rw [alookup_rinsert]
  | none => rw [alookup_rinsert]

lemma seedFold_sem (l : List (Option S × Nat)) :
    (∀ j, ((alookup j (l.foldl seedStep [])).isSome ↔ ∃ p ∈ l, p.2 = j)) ∧
      (∀ j rgx, alookup j (l.foldl seedStep []) = some rgx →
        ∀ w, RLang rgx w ↔ LEdge l j w) := by
  induction l using List.reverseRecOn with
  | nil =>
      constructor
      · intro j; simp [alookup]
      · intro j rgx h; exact absurd h (by simp [alookup])
  | append_singleton l p ih =>
      obtain ⟨ihp, ihl⟩ := ih
      have hfold : (l ++ [p]).foldl seedStep [] = seedStep (l.foldl seedStep []) p := by
        rw [List.foldl_append]
        rfl
      constructor
      · intro j
        rw [hfold, seedStep_lookup]
        by_cases hj : j = p.2
        · simp only [if_pos hj, Option.isSome_some, true_iff]
          exact ⟨p, List.mem_append.mpr (Or.inr (List.mem_singleton.mpr rfl)), hj.symm⟩
        · rw [if_neg hj, ihp j]
          constructor
          · rintro ⟨p', hp', hj'⟩
            exact ⟨p', List.mem_append.mpr (Or.inl hp'), hj'⟩
          · rintro ⟨p', hp', hj'⟩
            rcases List.mem_append.mp hp' with hp' | hp'
            · exact ⟨p', hp', hj'⟩
            · rw [List.mem_singleton] at hp'
              subst hp'
              exact absurd hj'.symm hj
      · intro j rgx h w
        rw [hfold, seedStep_lookup] at h
        by_cases hj : j = p.2
        · rw [if_pos hj] at h
          rw [lEdge_append_singleton]
          cases hold : alookup p.2 (l.foldl seedStep []) with
          | none =>
              rw [hold] at h
              rw [Option.some_inj] at h
              subst h
              have hnol : ¬ ∃ p' ∈ l, p'.2 = j := by
                rw [← ihp j, hj, hold]
                simp
              constructor
              · intro hr
                exact Or.inr ⟨hj.symm, hr⟩
              · rintro (hle | ⟨_, hr⟩)
                · exact absurd (lEdge_pres hle) hnol
                · exact hr
          | some old =>
              rw [hold] at h
              rw [Option.some_inj] at h
              subst h
              show RLang (Regex.Union old (litOf p.1)) w ↔ _
              rw [rlang_union_iff]
              have hj2 : alookup j (l.foldl seedStep []) = some old := by rw [hj]; exact hold
              rw [ihl j old hj2 w]
              constructor
              · rintro (hle | hr)
                · exact Or.inl hle
                · exact Or.inr ⟨hj.symm, hr⟩
              · rintro (hle | ⟨_, hr⟩)
                · exact Or.inl hle
                · exact Or.inr hr
        · rw [if_neg hj] at h
          rw [lEdge_append_singleton, ihl j rgx h w]
          constructor
          · intro hle
            exact Or.inl hle
          · rintro (hle | ⟨hj2, _⟩)
            · exact hle
            · exact absurd hj2.symm hj

lemma edgeL_iff {a : Automaton S} {q j : Nat} {w : List S} :
    EdgeL a q j w ↔ LEdge (transitionsList a q) j w ∨
      (w = [] ∧ j = a.size ∧ acceptingD a q = true) := by
  unfold EdgeL LEdge
  rw [or_assoc]

lemma lEdge_sink_false {a : Automaton S} (hwf : WF a) {q : Nat} {w : List S} :
    ¬ LEdge (transitionsList a q) a.size w := by
  intro h
  rcases h with ⟨s, _, hm⟩ | ⟨_, hm⟩
  · exact absurd (transitionsList_snd_bound hwf hm) (Nat.lt_irrefl _)
  · exact absurd (transitionsList_snd_bound hwf hm) (Nat.lt_irrefl _)

lemma seedRow_sem {a : Automaton S} (hwf : WF a) (q : Nat) :
    (∀ j, ((alookup j (seedRow a q)).isSome ↔ ∃ w, EdgeL a q j w)) ∧
      (∀ j rgx, alookup j (seedRow a q) = some rgx → ∀ w, RLang rgx w ↔ EdgeL a q j w) := by
  obtain ⟨hp, hl⟩ := seedFold_sem (transitionsList a q)
  have hpres_edge : ∀ j, j ≠ a.size →
      ((∃ p ∈ transitionsList a q, p.2 = j) ↔ ∃ w, EdgeL a q j w) := by
    intro j hj
    constructor
    · intro h
      obtain ⟨w, hw⟩ := pres_lEdge h
      exact ⟨w, edgeL_iff.mpr (Or.inl hw)⟩
    · rintro ⟨w, hw⟩
      rcases edgeL_iff.mp hw with hle | ⟨_, hsz, _⟩
      · exact lEdge_pres hle
      · exact absurd hsz hj
  have hlang_edge : ∀ j, j ≠ a.size → ∀ w,
      (LEdge (transitionsList a q) j w ↔ EdgeL a q j w) := by
    intro j hj w
    rw [edgeL_iff]
    constructor
    · exact Or.inl
    · rintro (h | ⟨_, hsz, _⟩)
      · exact h
      · exact absurd hsz hj
  have hFsink : alookup a.size ((transitionsList a q).foldl seedStep []) = none := by
    rw [← Option.not_isSome_iff_eq_none, hp]
    rintro ⟨p', hp', hj'⟩
    exact absurd hj' (Nat.ne_of_lt (transitionsList_snd_bound hwf hp'))
  unfold seedRow
  by_cases hacc : acceptingD a q = true
  · rw [if_pos hacc]
    constructor
    · intro j
      rw [alookup_rinsert]
      by_cases hj : j = a.size
      · rw [if_pos hj]
        simp only [Option.isSome_some, true_iff]
        exact ⟨[], Or.inr (Or.inr ⟨rfl, hj, hacc⟩)⟩
      · rw [if_neg hj, hp]
        exact hpres_edge j hj
    · intro j rgx h w
      rw [alookup_rinsert] at h
      by_cases hj : j = a.size
      · rw [if_pos hj, Option.some_inj] at h
        subst h
        rw [rlang_string_iff]
        constructor
        · rintro rfl
          exact Or.inr (Or.inr ⟨rfl, hj, hacc⟩)
        · intro hw
          rcases edgeL_iff.mp hw with hle | ⟨hw0, _, _⟩
          · rw [hj] at hle
            exact absurd hle (lEdge_sink_false hwf)
          · exact hw0
      · rw [if_neg hj] at h
        rw [hl j rgx h w]
        exact hlang_edge j hj w
  · rw [if_neg hacc]
    constructor
    · intro j
      rw [hp]
      by_cases hj : j = a.size
      · subst hj
        constructor
        · rintro ⟨p', hp', hj'⟩
          exact absurd hj' (Nat.ne_of_lt (transitionsList_snd_bound hwf hp'))
        · rintro ⟨w, hw⟩
          rcases edgeL_iff.mp hw with hle | ⟨_, _, h3⟩
          · exact absurd hle (lEdge_sink_false hwf)
          · exact absurd h3 hacc
      · exact hpres_edge j hj
    · intro j rgx h w
      by_cases hj : j = a.size
      · subst hj
        rw [h] at hFsink
        exact absurd hFsink (by simp)
      · rw [hl j rgx h w]
        exact hlang_edge j hj w

lemma pathL_false_iff {E : Nat → Nat → List S → Prop} {i j : Nat} {w : List S} :
    PathL E (fun _ => False) i j w ↔ E i j w := by
  constructor
  · intro h
    cases h with
    | single e => exact e
    | cons e hP _ => exact hP.elim
  · exact PathL.single

lemma nodup_keys_seedStep {m : List (Nat × Regex S)} (h : (m.map Prod.fst).Nodup)
    (p : Option S × Nat) : (((seedStep m p).map Prod.fst)).Nodup := by
  unfold seedStep
  cases alookup p.2 m with
  | some old => exact nodup_keys_rinsert h
  | none => exact nodup_keys_rinsert h

lemma nodup_keys_seedFold :
    ∀ (l : List (Option S × Nat)) (m : List (Nat × Regex S)), (m.map Prod.fst).Nodup →
      ((l.foldl seedStep m).map Prod.fst).Nodup := by
  intro l
  induction l with
  | nil => intro m h; exact h
  | cons p l ih =>
      intro m h
      rw [List.foldl_cons]
      exact ih _ (nodup_keys_seedStep h p)

lemma nodup_keys_seedRow (a : Automaton S) (q : Nat) :
    ((seedRow a q).map Prod.fst).Nodup := by
  unfold seedRow
  have h0 : (((transitionsList a q).foldl seedStep []).map Prod.fst).Nodup :=
    nodup_keys_seedFold _ [] (by simp)
  by_cases hacc : acceptingD a q = true
  · rw [if_pos hacc]
    exact nodup_keys_rinsert h0
  · rw [if_neg hacc]
    exact h0

lemma getD_set_eq {α : Type} :
    ∀ (l : List α) (i : Nat) (v d : α), i < l.length → (l.set i v).getD i d = v := by
  intro l
  induction l with
  | nil => intro i v d h; simp at h
  | cons x l ih =>
      intro i v d h
      cases i with
      | zero => rfl
      | succ i =>
          rw [List.set_cons_succ]
          exact ih i v d (by simpa using h)

lemma getD_set_ne {α : Type} :
    ∀ (l : List α) (i j : Nat) (v d : α), j ≠ i → (l.set i v).getD j d = l.getD j d := by
  intro l
  induction l with
  | nil => intro i j v d _; simp
  | cons x l ih =>
      intro i j v d h
      cases i with
      | zero =>
          cases j with
          | zero => exact absurd rfl h
          | succ j => rfl
      | succ i =>
          cases j with
          | zero => rfl
          | succ j =>
              rw [List.set_cons_succ]
              exact ih i j v d (fun he => h (by rw [he]))

/-- The merged entry written for target `j` when routing around the
eliminated state: union with the previous entry when one exists. -/
def elimEntry (rfk : Regex S) (starF : Option (Regex S)) (oldj : Option (Regex S))
    (rkj : Regex S) : Regex S :=
  match oldj with
  | some old => Regex.union old (curOf rfk starF rkj)
  | none => curOf rfk starF rkj

lemma elimStep_lookup (rfk : Regex S) (starF : Option (Regex S)) (k : Nat)
    (row : List (Nat × Regex S)) (p : Nat × Regex S) (j : Nat) :
    alookup j (elimStep rfk starF k row p) =
      if p.1 = k then alookup j row
      else if j = p.1 then some (elimEntry rfk starF (alookup p.1 row) p.2)
      else alookup j row := by
  unfold elimStep elimEntry
  by_cases hpk : p.1 = k
  · rw [if_pos hpk, if_pos hpk]
  · rw [if_neg hpk, if_neg hpk, alookup_rinsert]

lemma nodup_keys_elimStep {rfk : Regex S} {starF : Option (Regex S)} {k : Nat}
    {row : List (Nat × Regex S)} (h : (row.map Prod.fst).Nodup) (p : Nat × Regex S) :
    (((elimStep rfk starF k row p).map Prod.fst)).Nodup := by
  unfold elimStep
  by_cases hpk : p.1 = k
  · rw [if_pos hpk]; exact h
  · rw [if_neg hpk]; exact nodup_keys_rinsert h

lemma nodup_keys_elimFold {rfk : Regex S} {starF : Option (Regex S)} {k : Nat} :
    ∀ (snap row : List (Nat × Regex S)), (row.map Prod.fst).Nodup →
      (((snap.foldl (elimStep rfk starF k) row).map Prod.fst)).Nodup := by
  intro snap
  induction snap with
  | nil => intro row h; exact h
  | cons p snap ih =>
      intro row h
      rw [List.foldl_cons]
      exact ih _ (nodup_keys_elimStep h p)

lemma elimFold_lookup (rfk : Regex S) (starF : Option (Regex S)) (k : Nat) :
    ∀ (snap row : List (Nat × Regex S)), ((snap.map Prod.fst).Nodup) → ∀ j,
      alookup j (snap.foldl (elimStep rfk starF k) row) =
        if j = k then alookup j row
        else
          match alookup j snap with
          | some rkj => some (elimEntry rfk starF (alookup j row) rkj)
          | none => alookup j row := by
  intro snap
  induction snap with
  | nil =>
      intro row _ j
      rw [List.foldl_nil]
      by_cases hj : j = k
      · rw [if_pos hj]
      · rw [if_neg hj]
        rfl
  | cons p snap ih =>
      intro row hnd j
      rw [List.map_cons, List.nodup_cons] at hnd
      obtain ⟨hp1, hnd2⟩ := hnd
      rw [List.foldl_cons, ih (elimStep rfk starF k row p) hnd2 j, alookup_cons]
      by_cases hpk : p.1 = k
      · have he : elimStep rfk starF k row p = row := by
          unfold elimStep; rw [if_pos hpk]
        rw [he]
        by_cases hj : j = k
        · rw [if_pos hj, if_pos hj]
        · rw [if_neg hj, if_neg hj]
          have hpj : ¬ p.1 = j := fun h => hj (h.symm.trans hpk)
          rw [if_neg hpj]
      · rw [elimStep_lookup rfk starF k row p j, if_neg hpk]
        by_cases hj : j = k
        · rw [if_pos hj, if_pos hj]
          have hjp : ¬ j = p.1 := fun h => hpk (h.symm.trans hj)
          rw [if_neg hjp]
        · rw [if_neg hj, if_neg hj]
          by_cases hpj : p.1 = j
          · rw [if_pos hpj]
            have hsn : alookup j snap = none := by
              rw [alookup_eq_none_iff, ← hpj]
              exact hp1
            rw [hsn]
            have hjp : j = p.1 := hpj.symm
            rw [if_pos hjp, hjp]
          · rw [if_neg hpj]
            have hjp : ¬ j = p.1 := fun h => hpj h.symm
            rw [if_neg hjp]

lemma curOf_sem {a : Automaton S} {D : Nat → Prop} {frm k j : Nat}
    {rfk rkj : Regex S} {starF : Option (Regex S)}
    (hrfk : ∀ v, RLang rfk v ↔ PathL (EdgeL a) D frm k v)
    (hrkj : ∀ v, RLang rkj v ↔ PathL (EdgeL a) D k j v)
    (hself : ∀ v, PathL (EdgeL a) D k k v ↔
      ∃ selfR, starF = some selfR ∧ RLang selfR v) :
    ∀ w, RLang (curOf rfk starF rkj) w ↔
      ∃ w1 w2 w3, w = w1 ++ (w2 ++ w3) ∧ PathL (EdgeL a) D frm k w1 ∧
        StarW (PathL (EdgeL a) D k k) w2 ∧ PathL (EdgeL a) D k j w3 := by
  cases starF with
  | some selfR =>
      have hsel : ∀ u, RLang selfR u ↔ PathL (EdgeL a) D k k u := by
        intro u
        constructor
        · intro hr
          exact (hself u).mpr ⟨selfR, rfl, hr⟩
        · intro hp
          obtain ⟨s, hs, hr⟩ := (hself u).mp hp
          rw [Option.some_inj] at hs
          rw [hs]
          exact hr
      intro w
      show RLang (Regex.concat rfk (Regex.concat (Regex.kleene_star selfR) rkj)) w ↔ _
      rw [rlang_concat_smart]
      constructor
      · rintro ⟨u, v, rfl, hu, hv⟩
        rw [rlang_concat_smart] at hv
        obtain ⟨v2, v3, rfl, hv2, hv3⟩ := hv
        rw [rlang_kleene_star_smart] at hv2
        exact ⟨u, v2, v3, rfl, (hrfk u).mp hu, (starW_congr hsel).mp hv2,
          (hrkj v3).mp hv3⟩
      · rintro ⟨w1, w2, w3, rfl, h1, h2, h3⟩
        refine ⟨w1, w2 ++ w3, rfl, (hrfk w1).mpr h1, ?_⟩
        rw [rlang_concat_smart]
        refine ⟨w2, w3, rfl, ?_, (hrkj w3).mpr h3⟩
        rw [rlang_kleene_star_smart]
        exact (starW_congr hsel).mpr h2
  | none =>
      have hnoself : ∀ v, ¬ PathL (EdgeL a) D k k v := by
        intro v hv
        obtain ⟨s, hs, _⟩ := (hself v).mp hv
        exact absurd hs (by simp)
      intro w
      show RLang (Regex.concat rfk rkj) w ↔ _
      rw [rlang_concat_smart]
      constructor
      · rintro ⟨u, v, rfl, hu, hv⟩
        exact ⟨u, [], v, rfl, (hrfk u).mp hu, StarW.nil, (hrkj v).mp hv⟩
      · rintro ⟨w1, w2, w3, rfl, h1, h2, h3⟩
        have hw2 : w2 = [] := (starW_false hnoself).mp h2
        subst hw2
        exact ⟨w1, w3, rfl, (hrfk w1).mpr h1, (hrkj w3).mpr h3⟩

/-- The per-row invariant of state elimination: with eliminated set `D`, row
`frm` has Nodup keys, an entry for exactly the non-eliminated targets
reachable by a nonempty path with intermediates in `D`, and each entry's
regex denotes the words of such paths. -/
def RowInv (a : Automaton S) (D : Nat → Prop) (frm : Nat)
    (row : List (Nat × Regex S)) : Prop :=
  ((row.map Prod.fst).Nodup) ∧
    (∀ j, ((alookup j row).isSome = true ↔
      (¬ D j ∧ ∃ w, PathL (EdgeL a) D frm j w))) ∧
    (∀ j rgx, alookup j row = some rgx →
      ∀ w, RLang rgx w ↔ PathL (EdgeL a) D frm j w)

lemma rowInv_seed {a : Automaton S} (hwf : WF a) (q : Nat) :
    RowInv a (fun _ => False) q (seedRow a q) := by
  obtain ⟨hp, hl⟩ := seedRow_sem hwf q
  refine ⟨nodup_keys_seedRow a q, ?_, ?_⟩
  · intro j
    rw [hp j]
    constructor
    · rintro ⟨w, hw⟩
      exact ⟨fun h => h, w, pathL_false_iff.mpr hw⟩
    · rintro ⟨_, w, hw⟩
      exact ⟨w, pathL_false_iff.mp hw⟩
  · intro j rgx h w
    rw [hl j rgx h w]
    exact pathL_false_iff.symm

lemma elimRow_sem {a : Automaton S} {D : Nat → Prop} {k frm : Nat}
    (hkD : ¬ D k) {snap row : List (Nat × Regex S)}
    (hsnap : RowInv a D k snap) (hrow : RowInv a D frm row) :
    RowInv a (fun x => D x ∨ x = k) frm (elimRow snap k row) := by
  obtain ⟨hndS, hpS, hlS⟩ := hsnap
  obtain ⟨hndR, hpR, hlR⟩ := hrow
  unfold elimRow
  cases hk : alookup k row with
  | none =>
      have hnok : ∀ w, ¬ PathL (EdgeL a) D frm k w := by
        intro w hw
        have h2 := (hpR k).mpr ⟨hkD, w, hw⟩
        rw [hk] at h2
        simp at h2
      refine ⟨hndR, ?_, ?_⟩
      · intro j
        rw [hpR j]
        constructor
        · rintro ⟨hjD, w, hw⟩
          refine ⟨?_, w, pathL_mono (fun x hx => Or.inl hx) hw⟩
          rintro (h | h)
          · exact hjD h
          · rw [h] at hw
            exact hnok w hw
        · rintro ⟨hjDk, w, hw⟩
          refine ⟨fun h => hjDk (Or.inl h), ?_⟩
          rcases pathL_insert.mp hw with h | ⟨w1, w2, w3, _, h1, _, _⟩
          · exact ⟨w, h⟩
          · exact absurd h1 (hnok w1)
      · intro j rgx h w
        rw [hlR j rgx h w]
        constructor
        · exact pathL_mono (fun x hx => Or.inl hx)
        · intro hq
          rcases pathL_insert.mp hq with h2 | ⟨w1, _, _, _, h1, _, _⟩
          · exact h2
          · exact absurd h1 (hnok w1)
  | some rfk =>
      have hFk := elimFold_lookup rfk (alookup k snap) k snap row hndS
      have hw1ex : ∃ w1, PathL (EdgeL a) D frm k w1 := by
        have h2 := (hpR k).mp (by rw [hk]; rfl)
        exact h2.2
      have hrfk : ∀ v, RLang rfk v ↔ PathL (EdgeL a) D frm k v := hlR k rfk hk
      have hself : ∀ v, PathL (EdgeL a) D k k v ↔
          ∃ selfR, alookup k snap = some selfR ∧ RLang selfR v := by
        intro v
        constructor
        · intro hv
          have h2 := (hpS k).mpr ⟨hkD, v, hv⟩
          cases hks : alookup k snap with
          | none => rw [hks] at h2; simp at h2
          | some selfR => exact ⟨selfR, rfl, (hlS k selfR hks v).mpr hv⟩
        · rintro ⟨selfR, hks, hr⟩
          exact (hlS k selfR hks v).mp hr
      refine ⟨nodup_keys_rremove (nodup_keys_elimFold snap row hndR), ?_, ?_⟩
      · intro j
        rw [alookup_rremove]
        by_cases hj : j = k
        · rw [if_pos hj]
          simp only [Option.isSome_none, Bool.false_eq_true, false_iff]
          rintro ⟨hnDk, _⟩
          exact hnDk (Or.inr hj)
        · rw [if_neg hj]
          cases hjs : alookup j snap with
          | some rkj =>
              have hF2 : alookup j (snap.foldl (elimStep rfk (alookup k snap) k) row) =
                  some (elimEntry rfk (alookup k snap) (alookup j row) rkj) := by
                rw [hFk j, if_neg hj, hjs]
              rw [hF2]
              simp only [Option.isSome_some, true_iff]
              obtain ⟨hjD, w3, hw3⟩ := (hpS j).mp (by rw [hjs]; rfl)
              obtain ⟨w1, hw1⟩ := hw1ex
              refine ⟨?_, w1 ++ ([] ++ w3),
                pathL_insert.mpr (Or.inr ⟨w1, [], w3, rfl, hw1, StarW.nil, hw3⟩)⟩
              rintro (hD | hEq)
              · exact hjD hD
              · exact hj hEq
          | none =>
              have hF2 : alookup j (snap.foldl (elimStep rfk (alookup k snap) k) row) =
                  alookup j row := by
                rw [hFk j, if_neg hj, hjs]
              rw [hF2, hpR j]
              have hkey : ¬ D j → ∀ w, ¬ PathL (EdgeL a) D k j w := by
                intro hjD w hw
                have h2 := (hpS j).mpr ⟨hjD, w, hw⟩
                rw [hjs] at h2
                simp at h2
              constructor
              · rintro ⟨hjD, w, hw⟩
                refine ⟨?_, w, pathL_mono (fun x hx => Or.inl hx) hw⟩
                rintro (h | h)
                · exact hjD h
                · exact hj h
              · rintro ⟨hjDk, w, hw⟩
                have hjD : ¬ D j := fun h => hjDk (Or.inl h)
                refine ⟨hjD, ?_⟩
                rcases pathL_insert.mp hw with h2 | ⟨w1, w2, w3, _, _, _, h3⟩
                · exact ⟨w, h2⟩
                · exact absurd h3 (hkey hjD w3)
      · intro j rgx h w
        rw [alookup_rremove] at h
        by_cases hj : j = k
        · rw [if_pos hj] at h
          exact absurd h (by simp)
        · rw [if_neg hj] at h
          cases hjs : alookup j snap with
          | some rkj =>
              have hF2 : alookup j (snap.foldl (elimStep rfk (alookup k snap) k) row) =
                  some (elimEntry rfk (alookup k snap) (alookup j row) rkj) := by
                rw [hFk j, if_neg hj, hjs]
              rw [hF2, Option.some_inj] at h
              have hrkj : ∀ v, RLang rkj v ↔ PathL (EdgeL a) D k j v := hlS j rkj hjs
              obtain ⟨hjD, _⟩ := (hpS j).mp (by rw [hjs]; rfl)
              have hcur := curOf_sem hrfk hrkj hself
              have hins := @pathL_insert S _ (EdgeL a) D k frm j w
              cases hold : alookup j row with
              | some old =>
                  rw [hold] at h
                  have h2 : Regex.union old (curOf rfk (alookup k snap) rkj) = rgx := h
                  rw [← h2]
                  show RLang (Regex.Union old (curOf rfk (alookup k snap) rkj)) w ↔ _
                  rw [rlang_union_iff, hlR j old hold w, hcur w, hins]
              | none =>
                  rw [hold] at h
                  have h2 : curOf rfk (alookup k snap) rkj = rgx := h
                  rw [← h2, hcur w, hins]
                  have hnoP : ∀ v, ¬ PathL (EdgeL a) D frm j v := by
                    intro v hv
                    have h3 := (hpR j).mpr ⟨hjD, v, hv⟩
                    rw [hold] at h3
                    simp at h3
                  constructor
                  · exact Or.inr
                  · rintro (h3 | h3)
                    · exact absurd h3 (hnoP w)
                    · exact h3
          | none =>
              have hF2 : alookup j (snap.foldl (elimStep rfk (alookup k snap) k) row) =
                  alookup j row := by
                rw [hFk j, if_neg hj, hjs]
              rw [hF2] at h
              obtain ⟨hjD, _⟩ := (hpR j).mp (by rw [h]; rfl)
              have hkey : ∀ v, ¬ PathL (EdgeL a) D k j v := by
                intro v hv
                have h2 := (hpS j).mpr ⟨hjD, v, hv⟩
                rw [hjs] at h2
                simp at h2
              rw [hlR j rgx h w]
              have hins := @pathL_insert S _ (EdgeL a) D k frm j w
              rw [hins]
              constructor
              · exact Or.inl
              · rintro (h2 | ⟨w1, w2, w3, _, _, _, h3⟩)
                · exact h2
                · exact absurd h3 (hkey w3)

lemma rowInv_congr {a : Automaton S} {D1 D2 : Nat → Prop} {frm : Nat}
    {row : List (Nat × Regex S)} (h : ∀ x, D1 x ↔ D2 x) (hI : RowInv a D1 frm row) :
    RowInv a D2 frm row := by
  obtain ⟨hnd, hp, hl⟩ := hI
  refine ⟨hnd, ?_, ?_⟩
  · intro j
    rw [hp j]
    constructor
    · rintro ⟨h1, w, hw⟩
      exact ⟨fun hx => h1 ((h j).mpr hx), w, pathL_mono (fun x => (h x).mp) hw⟩
    · rintro ⟨h1, w, hw⟩
      exact ⟨fun hx => h1 ((h j).mp hx), w, pathL_mono (fun x => (h x).mpr) hw⟩
  · intro j rgx hg w
    rw [hl j rgx hg w]
    exact ⟨pathL_mono (fun x => (h x).mp), pathL_mono (fun x => (h x).mpr)⟩

/-- The table invariant: the elimination table has one row per state, and
every not-yet-eliminated row satisfies `RowInv`. -/
def TableInv (a : Automaton S) (D : Nat → Prop)
    (rows : List (List (Nat × Regex S))) : Prop :=
  rows.length = a.size ∧
    ∀ frm, frm < a.size → ¬ D frm → RowInv a D frm (rows.getD frm [])

lemma tableInv_congr {a : Automaton S} {D1 D2 : Nat → Prop}
    {rows : List (List (Nat × Regex S))} (h : ∀ x, D1 x ↔ D2 x)
    (hT : TableInv a D1 rows) : TableInv a D2 rows := by
  refine ⟨hT.1, ?_⟩
  intro frm hf hnd
  exact rowInv_congr h (hT.2 frm hf (fun hx => hnd ((h frm).mp hx)))

lemma elimStateFold_length (k : Nat) :
    ∀ (l : List Nat) (rows : List (List (Nat × Regex S))),
      (l.foldl (fun rows frm => if frm = k then rows
        else rows.set frm (elimRow (rows.getD k []) k (rows.getD frm []))) rows).length =
      rows.length := by
  intro l
  induction l with
  | nil => intro rows; rfl
  | cons i l ih =>
      intro rows
      rw [List.foldl_cons, ih]
      by_cases hik : i = k
      · rw [if_pos hik]
      · rw [if_neg hik, List.length_set]

lemma elimStateFold_getD (k : Nat) :
    ∀ (l : List Nat) (rows : List (List (Nat × Regex S))), l.Nodup →
      (∀ i ∈ l, i < rows.length) →
      ∀ frm,
        (l.foldl (fun rows frm => if frm = k then rows
            else rows.set frm (elimRow (rows.getD k []) k (rows.getD frm []))) rows).getD
            frm [] =
          if frm ∈ l ∧ frm ≠ k then elimRow (rows.getD k []) k (rows.getD frm [])
          else rows.getD frm [] := by
  intro l
  induction l with
  | nil =>
      intro rows _ _ frm
      rw [List.foldl_nil, if_neg]
      rintro ⟨hm, _⟩
      exact absurd hm (List.not_mem_nil frm)
  | cons i l ih =>
      intro rows hnd hb frm
      rw [List.nodup_cons] at hnd
      obtain ⟨hil, hnd2⟩ := hnd
      rw [List.foldl_cons]
      by_cases hik : i = k
      · have he : (if i = k then rows
            else rows.set i (elimRow (rows.getD k []) k (rows.getD i []))) = rows :=
          if_pos hik
        rw [he, ih rows hnd2 (fun x hx => hb x (List.mem_cons_of_mem i hx)) frm]
        by_cases hc : frm ∈ l ∧ frm ≠ k
        · rw [if_pos hc, if_pos ⟨List.mem_cons_of_mem i hc.1, hc.2⟩]
        · rw [if_neg hc, if_neg ?_]
          rintro ⟨hm, hne⟩
          rcases List.mem_cons.mp hm with h1 | h1
          · exact hne (h1.trans hik)
          · exact hc ⟨h1, hne⟩
      · have he : (if i = k then rows
            else rows.set i (elimRow (rows.getD k []) k (rows.getD i []))) =
            rows.set i (elimRow (rows.getD k []) k (rows.getD i [])) :=
          if_neg hik
        rw [he]
        have hlen : (rows.set i (elimRow (rows.getD k []) k (rows.getD i []))).length =
            rows.length := List.length_set rows i _
        have hbounds : ∀ x ∈ l,
            x < (rows.set i (elimRow (rows.getD k []) k (rows.getD i []))).length := by
          intro x hx
          rw [hlen]
          exact hb x (List.mem_cons_of_mem i hx)
        rw [ih _ hnd2 hbounds frm]
        have hgk : (rows.set i (elimRow (rows.getD k []) k (rows.getD i []))).getD k [] =
            rows.getD k [] := getD_set_ne rows i k _ [] (fun h => hik h.symm)
        by_cases hc : frm ∈ l ∧ frm ≠ k
        · have hfi : frm ≠ i := fun h => hil (h ▸ hc.1)
          have hgf :
              (rows.set i (elimRow (rows.getD k []) k (rows.getD i []))).getD frm [] =
              rows.getD frm [] := getD_set_ne rows i frm _ [] hfi
          rw [if_pos hc, hgk, hgf, if_pos ⟨List.mem_cons_of_mem i hc.1, hc.2⟩]
        · rw [if_neg hc]
          by_cases hfi : frm = i
          · rw [hfi]
            rw [getD_set_eq rows i _ [] (hb i (List.mem_cons_self i l))]
            rw [if_pos ⟨List.mem_cons_self i l, hik⟩]
          · have hgf :
                (rows.set i (elimRow (rows.getD k []) k (rows.getD i []))).getD frm [] =
                rows.getD frm [] := getD_set_ne rows i frm _ [] hfi
            rw [hgf, if_neg ?_]
            rintro ⟨hm, hne⟩
            rcases List.mem_cons.mp hm with h1 | h1
            · exact hfi h1
            · exact hc ⟨h1, hne⟩

lemma eliminateState_tableInv {a : Automaton S} {D : Nat → Prop}
    {rows : List (List (Nat × Regex S))} {k : Nat}
    (hk : k < a.size) (hkD : ¬ D k) (hT : TableInv a D rows) :
    TableInv a (fun x => D x ∨ x = k) (eliminateState a.size rows k) := by
  obtain ⟨hlen, hinv⟩ := hT
  unfold eliminateState
  constructor
  · rw [elimStateFold_length]
    exact hlen
  · intro frm hf hnd
    have hndD : ¬ D frm := fun h => hnd (Or.inl h)
    have hfk : frm ≠ k := fun h => hnd (Or.inr h)
    rw [elimStateFold_getD k (List.range a.size) rows (List.nodup_range a.size)
        (fun i hi => by rw [hlen]; exact List.mem_range.mp hi) frm]
    rw [if_pos ⟨List.mem_range.mpr hf, hfk⟩]
    exact elimRow_sem hkD (hinv k hk hkD) (hinv frm hf hndD)

lemma tableInv_seed {a : Automaton S} (hwf : WF a) :
    TableInv a (fun _ => False) ((List.range a.size).map (fun q => seedRow a q)) := by
  constructor
  · rw [List.length_map, List.length_range]
  · intro frm hf _
    rw [getD_map_range (fun q => seedRow a q) hf []]
    exact rowInv_seed hwf frm

lemma elimAll_tableInv {a : Automaton S} :
    ∀ (l : List Nat) (D : Nat → Prop) (rows : List (List (Nat × Regex S))),
      l.Nodup → (∀ i ∈ l, i < a.size) → (∀ i ∈ l, ¬ D i) →
      TableInv a D rows →
      TableInv a (fun x => D x ∨ (x ∈ l ∧ x ≠ a.initial))
        (l.foldl (fun rows k => if k = a.initial then rows
          else eliminateState a.size rows k) rows) := by
  intro l
  induction l with
  | nil =>
      intro D rows _ _ _ hT
      rw [List.foldl_nil]
      refine tableInv_congr ?_ hT
      intro x
      simp
  | cons i l ih =>
      intro D rows hnd hb hD hT
      rw [List.nodup_cons] at hnd
      rw [List.foldl_cons]
      by_cases hii : i = a.initial
      · have he : (if i = a.initial then rows else eliminateState a.size rows i) = rows :=
          if_pos hii
        rw [he]
        have h2 := ih D rows hnd.2 (fun x hx => hb x (List.mem_cons_of_mem i hx))
          (fun x hx => hD x (List.mem_cons_of_mem i hx)) hT
        refine tableInv_congr ?_ h2
        intro x
        constructor
        · rintro (h | ⟨hm, hni⟩)
          · exact Or.inl h
          · exact Or.inr ⟨List.mem_cons_of_mem i hm, hni⟩
        · rintro (h | ⟨hm, hni⟩)
          · exact Or.inl h
          · rcases List.mem_cons.mp hm with h1 | h1
            · exact absurd (h1.trans hii) hni
            · exact Or.inr ⟨h1, hni⟩
      · have he : (if i = a.initial then rows else eliminateState a.size rows i) =
            eliminateState a.size rows i := if_neg hii
        rw [he]
        have hstep := eliminateState_tableInv (hb i (List.mem_cons_self i l))
          (hD i (List.mem_cons_self i l)) hT
        have h2 := ih (fun x => D x ∨ x = i) (eliminateState a.size rows i) hnd.2
          (fun x hx => hb x (List.mem_cons_of_mem i hx))
          (fun x hx => by
            rintro (h | h)
            · exact hD x (List.mem_cons_of_mem i hx) h
            · exact hnd.1 (h ▸ hx))
          hstep
        refine tableInv_congr ?_ h2
        intro x
        constructor
        · rintro ((h | h) | ⟨hm, hni⟩)
          · exact Or.inl h
          · exact Or.inr ⟨List.mem_cons.mpr (Or.inl h), fun hx => hii (h.symm.trans hx)⟩
          · exact Or.inr ⟨List.mem_cons_of_mem i hm, hni⟩
        · rintro (h | ⟨hm, hni⟩)
          · exact Or.inl (Or.inl h)
          · rcases List.mem_cons.mp hm with h1 | h1
            · exact Or.inl (Or.inr h1)
            · exact Or.inr ⟨h1, hni⟩

lemma accepted_iff_star_decomp {a : Automaton S} (hwf : WF a)
    (hkeys : KeysInAlphabet a) (w : List S) :
    accepted a w = true ↔
      ∃ u v, w = u ++ v ∧
        StarW (PathL (EdgeL a) (fun x => x < a.size ∧ x ≠ a.initial)
          a.initial a.initial) u ∧
        PathL (EdgeL a) (fun x => x < a.size ∧ x ≠ a.initial) a.initial a.size v := by
  have hallowed : PathL (EdgeL a) (fun _ => True) a.initial a.size w ↔
      PathL (EdgeL a) (fun x => (x < a.size ∧ x ≠ a.initial) ∨ x = a.initial)
        a.initial a.size w := by
    constructor
    · intro h
      refine pathL_change_allowed ?_ h
      intro q hq
      obtain ⟨y, w2, he⟩ := hq
      by_cases hqi : q = a.initial
      · exact Or.inr hqi
      · exact Or.inl ⟨edgeL_src_lt hwf he, hqi⟩
    · intro h
      exact pathL_mono (fun q _ => trivial) h
  rw [accepted_iff_pathL hwf hkeys, hallowed]
  have hins := @pathL_insert S _ (EdgeL a) (fun x => x < a.size ∧ x ≠ a.initial)
    a.initial a.initial a.size w
  rw [hins]
  constructor
  · rintro (h | ⟨w1, w2, w3, heq, h1, h2, h3⟩)
    · exact ⟨[], w, rfl, StarW.nil, h⟩
    · exact ⟨w1 ++ w2, w3, by rw [heq, List.append_assoc], StarW.cons h1 h2, h3⟩
  · rintro ⟨u, v, heq, hu, hv⟩
    cases hu with
    | nil =>
        rw [heq]
        exact Or.inl hv
    | cons h1 h2 =>
        rename_i u1 u2
        rw [heq, List.append_assoc]
        exact Or.inr ⟨u1, u2, v, rfl, h1, h2, hv⟩

lemma regex_final_sem {a : Automaton S} (hwf : WF a) (hkeys : KeysInAlphabet a)
    {row : List (Nat × Regex S)}
    (hrow : RowInv a (fun x => x < a.size ∧ x ≠ a.initial) a.initial row) :
    ((match alookup a.size row with
      | none => none
      | some tin =>
          match alookup a.initial row with
          | some selfR => some (Regex.concat (Regex.kleene_star selfR) tin)
          | none => some tin) = (none : Option (Regex S)) ↔
        ∀ w : List S, accepted a w = false) ∧
      (∀ r, (match alookup a.size row with
          | none => none
          | some tin =>
              match alookup a.initial row with
              | some selfR => some (Regex.concat (Regex.kleene_star selfR) tin)
              | none => some tin) = some r →
        ∀ w : List S, RLang r w ↔ accepted a w = true) := by
  obtain ⟨hnd, hpres, hlang⟩ := hrow
  have hacc := accepted_iff_star_decomp hwf hkeys (a := a)
  have hnfD : ¬ (a.size < a.size ∧ a.size ≠ a.initial) :=
    fun hx => Nat.lt_irrefl a.size hx.1
  cases htin : alookup a.size row with
  | none =>
      have hnop : ∀ v, ¬ PathL (EdgeL a) (fun x => x < a.size ∧ x ≠ a.initial)
          a.initial a.size v := by
        intro v hv
        have h2 := (hpres a.size).mpr ⟨hnfD, v, hv⟩
        rw [htin] at h2
        simp at h2
      constructor
      · refine ⟨fun _ w => ?_, fun _ => rfl⟩
        cases hb : accepted a w with
        | false => rfl
        | true =>
            obtain ⟨u, v, hq, hu, hv⟩ := (hacc w).mp hb
            exact absurd hv (hnop v)
      · intro r hr
        have hr2 : (none : Option (Regex S)) = some r := hr
        exact absurd hr2 (by simp)
  | some tin =>
      have htin_lang := hlang a.size tin htin
      obtain ⟨v0, hv0⟩ : ∃ v, PathL (EdgeL a) (fun x => x < a.size ∧ x ≠ a.initial)
          a.initial a.size v := by
        have h2 := (hpres a.size).mp (by rw [htin]; rfl)
        exact h2.2
      have hacc0 : accepted a v0 = true := (hacc v0).mpr ⟨[], v0, rfl, StarW.nil, hv0⟩
      cases hself : alookup a.initial row with
      | some selfR =>
          have hself_lang := hlang a.initial selfR hself
          constructor
          · constructor
            · intro hnone
              have h2 : some (Regex.concat (Regex.kleene_star selfR) tin) =
                  (none : Option (Regex S)) := hnone
              exact absurd h2 (by simp)
            · intro hall
              have h2 := hall v0
              rw [hacc0] at h2
              exact absurd h2 (by simp)
          · intro r hr w
            have hr2 : some (Regex.concat (Regex.kleene_star selfR) tin) = some r := hr
            rw [Option.some_inj] at hr2
            rw [← hr2, hacc w, rlang_concat_smart]
            constructor
            · rintro ⟨u, v, hq, hu, hv⟩
              rw [rlang_kleene_star_smart] at hu
              exact ⟨u, v, hq, (starW_congr hself_lang).mp hu, (htin_lang v).mp hv⟩
            · rintro ⟨u, v, hq, hu, hv⟩
              refine ⟨u, v, hq, ?_, (htin_lang v).mpr hv⟩
              rw [rlang_kleene_star_smart]
              exact (starW_congr hself_lang).mpr hu
      | none =>
          have hnoself : ∀ v, ¬ PathL (EdgeL a) (fun x => x < a.size ∧ x ≠ a.initial)
              a.initial a.initial v := by
            intro v hv
            have h2 := (hpres a.initial).mpr ⟨fun hx => hx.2 rfl, v, hv⟩
            rw [hself] at h2
            simp at h2
          constructor
          · constructor
            · intro hnone
              have h2 : some tin = (none : Option (Regex S)) := hnone
              exact absurd h2 (by simp)
            · intro hall
              have h2 := hall v0
              rw [hacc0] at h2
              exact absurd h2 (by simp)
          · intro r hr w
            have hr2 : some tin = some r := hr
            rw [Option.some_inj] at hr2
            rw [← hr2, hacc w]
            constructor
            · intro h
              exact ⟨[], w, rfl, StarW.nil, (htin_lang w).mp h⟩
            · rintro ⟨u, v, hq, hu, hv⟩
              have hu0 : u = [] := (starW_false hnoself).mp hu
              rw [hu0, List.nil_append] at hq
              rw [hq]
              exact (htin_lang v).mpr hv

/-- C6: `regex()` raises `LanguageEmpty` (embedded as `none`) exactly when
the automaton accepts no word; otherwise the returned regex denotes exactly
the accepted language.  As for C5, invariant 4 of §3 (`Some`-keyed
transition symbols lie in the alphabet) is assumed, since `transitions()`
enumerates only alphabet symbols. -/
theorem claimC6_regex (a : Automaton S) (hwf : WF a) (hkeys : KeysInAlphabet a) :
    (regexOf a = none ↔ ∀ w : List S, accepted a w = false) ∧
      (∀ r, regexOf a = some r → ∀ w : List S, RLang r w ↔ accepted a w = true) := by
  have hinit : a.initial < a.size := hwf.2.2.1
  have hT1 := elimAll_tableInv (List.range a.size) (fun _ => False)
      ((List.range a.size).map (fun q => seedRow a q)) (List.nodup_range a.size)
      (fun i hi => List.mem_range.mp hi) (fun _ _ h => h) (tableInv_seed hwf)
  have hT : TableInv a (fun x => x < a.size ∧ x ≠ a.initial)
      ((List.range a.size).foldl
        (fun rows k => if k = a.initial then rows else eliminateState a.size rows k)
        ((List.range a.size).map (fun q => seedRow a q))) := by
    refine tableInv_congr ?_ hT1
    intro x
    rw [false_or, List.mem_range]
  have hrow := hT.2 a.initial hinit (fun hx => hx.2 rfl)
  exact regex_final_sem hwf hkeys hrow

/-- A 2-state automaton with an ε-cycle, used to witness C6. -/
def c6In : Automaton Char :=
  ⟨['a'], 2, 0, [false, true], [[(none, [1])], [(none, [0]), (some 'a', [1])]]⟩

/-- Witness for C6 at a concrete automaton with an ε-cycle. -/
theorem claimC6_witness :
    WF c6In ∧ KeysInAlphabet c6In ∧
      ((regexOf c6In = none ↔ ∀ w : List Char, accepted c6In w = false) ∧
        (∀ r, regexOf c6In = some r →
          ∀ w : List Char, RLang r w ↔ accepted c6In w = true)) :=
  ⟨by decide, by decide, claimC6_regex c6In (by decide) (by decide)⟩

end Aut
